import Mathlib

/-!
# Shortcode directive mini-language: a verified model

This file embeds the shortcode parsing / serialization / scanning core of the
repository (the `util` module exercised by the shortcode test suite) as
executable Lean definitions over `List Char`, and proves the specification
claims about it.

The `util` module itself ships outside the visible source tree; only its test
suite is visible.  Every definition below is therefore modelled from the
specification document, with the repository's own test expectations used to
pin down behavior where the spec text is loose (notably the treatment of
backslash runs before quotes).
-/

namespace ShortcodeModel

/-- Whitespace characters, as matched by the tokenizer when splitting
parameter tokens. -/
def isWs (c : Char) : Bool :=
  c == ' ' || c == '\t' || c == '\n' || c == '\r'

/-- Word characters (letters, digits, underscore): the identifier-token rule
for directive names, and the word-boundary class used by the scanner. -/
def wordChar (c : Char) : Bool :=
  c.isAlphanum || c == '_'

/-- Characters allowed in a parameter name (word characters plus dash, as in
the `param-with-dash` test). -/
def nameChar (c : Char) : Bool :=
  c.isAlphanum || c == '_' || c == '-'

/-- Modelled from the spec: `QuotedStringCodec.escape` of the missing `util`
module.  Every literal `"` is replaced by `\"`; every other character,
including pre-existing backslashes, is left unchanged. -/
def escapeQ : List Char → List Char
  | [] => []
  | c :: r => if c = '"' then '\\' :: '"' :: escapeQ r else c :: escapeQ r

/-- Modelled from the spec: the replacement step of
`QuotedStringCodec.unescape` of the missing `util` module.  Each two-character
sequence `\"` is replaced by `"`, scanning left-to-right, non-overlapping,
consuming exactly one backslash per replacement; all other characters are kept
verbatim. -/
def unescapeQ : List Char → List Char
  | [] => []
  | '\\' :: '"' :: r => '"' :: unescapeQ r
  | c :: r => c :: unescapeQ r

/-- Modelled from the spec: the interior-validity rule of
`QuotedStringCodec.unescape`: every `"` strictly between the outer quotes must
be immediately preceded by a `\`. -/
def quotesEscaped : List Char → Bool
  | [] => true
  | '"' :: _ => false
  | '\\' :: '"' :: r => quotesEscaped r
  | _ :: r => quotesEscaped r

/-- The interior of a quoted literal: the characters strictly between the
first and the last character. -/
def interiorOf (l : List Char) : List Char :=
  (l.drop 1).dropLast

/-- The outer-quote test: the literal has length at least two and begins and
ends with a `"` character. -/
def outerQuoted (l : List Char) : Bool :=
  decide (2 ≤ l.length) && l.head? == some '"' && l.getLast? == some '"'

/-- The single error kind of the module, with a discriminating message. -/
inductive FmtErr
  | notQuoted
  | oddQuotes
  | badDelims
  | bothClosingSelf
  | mixedParams
  | badName
  | badParam
  | closerHasParams
  deriving DecidableEq, Repr

/-- The human-readable message carried by each error variant. -/
def FmtErr.message : FmtErr → List Char
  | .notQuoted => "not a valid \"-quoted string".toList
  | .oddQuotes => "odd number of unescaped quotes".toList
  | .badDelims => "does not start and end with matching delimiters".toList
  | .bothClosingSelf => "Shortcode can't be both closing and self-closing".toList
  | .mixedParams => "Cannot mix named and positional parameters".toList
  | .badName => "invalid shortcode name".toList
  | .badParam => "invalid shortcode parameter".toList
  | .closerHasParams => "closing shortcode cannot have parameters".toList

instance {ε α : Type} [DecidableEq ε] [DecidableEq α] : DecidableEq (Except ε α) := fun x y =>
  match x, y with
  | .ok a, .ok b => if h : a = b then .isTrue (by rw [h]) else .isFalse (by simp [h])
  | .error a, .error b => if h : a = b then .isTrue (by rw [h]) else .isFalse (by simp [h])
  | .ok _, .error _ => .isFalse (by simp)
  | .error _, .ok _ => .isFalse (by simp)

/-- Modelled from the spec: `unescapeStringQuotedWith` of the missing `util`
module (specialized to the `"` quote character, the only one the tests use).
The input must begin and end with a `"`, every interior `"` must be
immediately preceded by `\`; the result strips the outer quotes and replaces
each `\"` by `"`. -/
def unescapeStringQuotedWith (l : List Char) : Except FmtErr (List Char) :=
  if outerQuoted l && quotesEscaped (interiorOf l) then
    .ok (unescapeQ (interiorOf l))
  else
    .error .notQuoted

/-- A segment of a parameter token: a maximal run of bare (unquoted,
non-whitespace) characters, or the raw content of one double-quoted span
(escape pairs kept verbatim, terminator quote excluded). -/
inductive Seg
  | bare (chars : List Char)
  | quoted (content : List Char)
  deriving DecidableEq, Repr

/-- A parameter token: adjacent bare runs and quoted spans with no
intervening whitespace form a single token. -/
abbrev Token := List Seg

/-- Close the pending bare run (if any) into the segment stack. -/
def flushBare (curBare : List Char) (segs : List Seg) : List Seg :=
  if curBare.isEmpty then segs else .bare curBare.reverse :: segs

/-- Close the pending token (if any) into the token stack. -/
def flushTok (curBare : List Char) (segs : List Seg) (toks : List Token) : List Token :=
  match flushBare curBare segs with
  | [] => toks
  | s => s.reverse :: toks

/-- Modelled from the spec: the parameter tokenizer of the missing
`Shortcode.fromString`.  One character at a time over the directive body:
whitespace separates tokens, a `"` opens a quoted span that runs to the next
quote not escaped by a backslash (a backslash escapes the character after it,
so `\\` is an escaped backslash and does not escape a following quote), and a
quoted span left open at the end of the input is the "odd number of unescaped
quotes" failure.  Arguments: input, inside-quote flag, after-backslash flag,
reversed quoted-content accumulator, reversed bare-run accumulator, reversed
segment stack, reversed token stack. -/
def tokRun : List Char → Bool → Bool → List Char → List Char → List Seg → List Token →
    Except FmtErr (List Token)
  | [], true, _, _, _, _, _ => .error .oddQuotes
  | [], false, _, _, cb, segs, toks => .ok (flushTok cb segs toks).reverse
  | c :: r, true, true, qa, cb, segs, toks => tokRun r true false (c :: qa) cb segs toks
  | c :: r, true, false, qa, cb, segs, toks =>
    if c = '"' then tokRun r false false [] [] (Seg.quoted qa.reverse :: segs) toks
    else if c = '\\' then tokRun r true true ('\\' :: qa) cb segs toks
    else tokRun r true false (c :: qa) cb segs toks
  | c :: r, false, _, qa, cb, segs, toks =>
    if isWs c then tokRun r false false [] [] [] (flushTok cb segs toks)
    else if c = '"' then tokRun r true false [] [] (flushBare cb segs) toks
    else tokRun r false false qa (c :: cb) segs toks

/-- Split a directive body into parameter tokens. -/
def tokenize (l : List Char) : Except FmtErr (List Token) :=
  tokRun l false false [] [] [] []

/-- Strip the trailing backslash run, then the trailing whitespace run, from
the raw content of a quoted span (the permissive treatment the tests pin down
for quoted values ending in backslashes). -/
def stripTrailing (l : List Char) : List Char :=
  List.rdropWhile isWs (List.rdropWhile (fun c => c == '\\') l)

/-- The logical value of a quoted parameter token. -/
def valueOfQuoted (q : List Char) : List Char :=
  unescapeQ (stripTrailing q)

/-- Split a bare run at its first `=`, when present. -/
def splitAtEq : List Char → Option (List Char × List Char)
  | [] => none
  | c :: r => if c = '=' then some ([], r) else (splitAtEq r).map fun p => (c :: p.1, p.2)

/-- A valid parameter name: nonempty, made of name characters. -/
def validName (l : List Char) : Bool :=
  !l.isEmpty && l.all nameChar

/-- A valid directive name: nonempty, made of word characters. -/
def validSCName (l : List Char) : Bool :=
  !l.isEmpty && l.all wordChar

/-- One directive argument: a logical (unescaped) value and an optional
parameter name, mirroring the `ShortcodeParam` class. -/
structure ShortcodeParam where
  value : List Char
  name : Option (List Char) := none
  deriving DecidableEq, Repr

/-- Modelled from the spec: turn one parameter token into a `ShortcodeParam`.
A bare token with a named prefix `name=` is a named parameter, a quoted token
is a positional one, and `name=` directly followed by a quoted span is a named
parameter with a quoted value. -/
def paramOfToken : Token → Except FmtErr ShortcodeParam
  | [Seg.bare b] =>
    match splitAtEq b with
    | some (n, v) => if validName n then .ok ⟨v, some n⟩ else .ok ⟨b, none⟩
    | none => .ok ⟨b, none⟩
  | [Seg.quoted q] => .ok ⟨valueOfQuoted q, none⟩
  | [Seg.bare b, Seg.quoted q] =>
    if b.getLast? == some '=' && validName b.dropLast then
      .ok ⟨valueOfQuoted q, some b.dropLast⟩
    else .error .badParam
  | _ => .error .badParam

/-- Turn every parameter token into a `ShortcodeParam`, failing on the first
bad token. -/
def mapParams : List Token → Except FmtErr (List ShortcodeParam)
  | [] => .ok []
  | t :: ts => do
    let p ← paramOfToken t
    let ps ← mapParams ts
    .ok (p :: ps)

/-- The directive entity, mirroring the `Shortcode` class. -/
structure Shortcode where
  name : List Char
  params : List ShortcodeParam
  isPercentDelimited : Bool := false
  isClosing : Bool := false
  isSelfClosing : Bool := false
  deriving DecidableEq, Repr

/-- The `\x7b\x7b<` opening marker. -/
def angleOpen : List Char := "\x7b\x7b<".toList

/-- The `>\x7d\x7d` closing marker. -/
def angleClose : List Char := ">\x7d\x7d".toList

/-- The `\x7b\x7b%` opening marker. -/
def percentOpen : List Char := "\x7b\x7b%".toList

/-- The `%\x7d\x7d` closing marker. -/
def percentClose : List Char := "%\x7d\x7d".toList

/-- Drop leading whitespace. -/
def trimL (l : List Char) : List Char := l.dropWhile isWs

/-- Drop trailing whitespace. -/
def trimR (l : List Char) : List Char := List.rdropWhile isWs l

/-- Drop leading and trailing whitespace. -/
def trim (l : List Char) : List Char := trimR (trimL l)

/-- Drop the last `n` elements. -/
def dropLastN (n : Nat) (l : List Char) : List Char := l.take (l.length - n)

/-- Which delimiter pair wraps the directive: `some true` for
`\x7b\x7b% … %\x7d\x7d`, `some false` for `\x7b\x7b< … >\x7d\x7d`, `none` when
the markers are missing or mismatched. -/
def delimKind (s : List Char) : Option Bool :=
  if percentOpen.isPrefixOf s && percentClose.isSuffixOf s then some true
  else if angleOpen.isPrefixOf s && angleClose.isSuffixOf s then some false
  else none

/-- The directive text with its three-character opening and closing markers
removed. -/
def rawInterior (s : List Char) : List Char := dropLastN 3 (s.drop 3)

/-- Detect the self-closing slash: a `/` immediately adjacent to the closing
marker, with no intervening whitespace.  Returns the flag and the interior
with that marker slash removed. -/
def selfCloseSplit (raw : List Char) : Bool × List Char :=
  if raw.getLast? == some '/' then (true, raw.dropLast) else (false, raw)

/-- Detect the closing slash: a `/` (possibly whitespace-separated) right
after the opening marker.  Expects an already-trimmed body; returns the flag
and the body with the slash removed and re-trimmed. -/
def closeSplit : List Char → Bool × List Char
  | '/' :: t => (true, trim t)
  | l => (false, l)

/-- Modelled from the spec: `Shortcode.fromString` of the missing `util`
module.  Checks matched delimiters, detects the closing and self-closing
slashes, tokenizes the body, takes the first token as the directive name,
parses the remaining tokens as parameters, and rejects directives that are
both closing and self-closing, have mixed named and positional parameters, or
are a closer carrying parameters. -/
def Shortcode.fromString (s : List Char) : Except FmtErr Shortcode :=
  match delimKind s with
  | none => .error .badDelims
  | some isP =>
    if (selfCloseSplit (rawInterior s)).1
        && (closeSplit (trim (selfCloseSplit (rawInterior s)).2)).1 then
      .error .bothClosingSelf
    else
      match tokenize (closeSplit (trim (selfCloseSplit (rawInterior s)).2)).2 with
      | .error e => .error e
      | .ok [] => .error .badName
      | .ok (t0 :: rest) =>
        match t0 with
        | [Seg.bare n] =>
          if validSCName n then
            match mapParams rest with
            | .error e => .error e
            | .ok ps =>
              if (ps.any fun p => p.name.isSome) && (ps.any fun p => p.name.isNone) then
                .error .mixedParams
              else if (closeSplit (trim (selfCloseSplit (rawInterior s)).2)).1
                  && !ps.isEmpty then
                .error .closerHasParams
              else
                .ok ⟨n, ps, isP, (closeSplit (trim (selfCloseSplit (rawInterior s)).2)).1,
                  (selfCloseSplit (rawInterior s)).1⟩
          else .error .badName
        | _ => .error .badName

/-- Serialize one parameter: `"escaped-value"`, with `name=` prepended for a
named parameter, mirroring `ShortcodeParam.toHugo`. -/
def ShortcodeParam.toHugo (p : ShortcodeParam) : List Char :=
  (match p.name with
   | some n => n ++ ['=']
   | none => []) ++ '"' :: (escapeQ p.value ++ ['"'])

/-- Modelled from the spec: `Shortcode.toHugo` of the missing `util` module.
Renders the opening marker, the closing slash when set, the name, each
parameter preceded by one space, the self-closing slash when set, and the
closing marker. -/
def Shortcode.toHugo (s : Shortcode) : List Char :=
  (if s.isPercentDelimited then percentOpen else angleOpen)
    ++ ' ' :: ((if s.isClosing then ['/'] else []) ++ s.name)
    ++ (s.params.map fun p => ' ' :: p.toHugo).flatten
    ++ (if s.isSelfClosing then [' ', '/'] else [' '])
    ++ (if s.isPercentDelimited then percentClose else angleClose)

/-- Modelled from the spec: the body part of the scanner pattern built by
`Shortcode.regex`.  After the directive name, consume the shortest stretch of
characters — treating double-quoted spans as opaque (a backslash escapes the
character after it) — up to and including the first closing marker found
outside quotes.  Returns the remaining input after the closer, or `none` when
the input ends first (an unterminated quoted span makes this match attempt
fail; the document scan itself goes on).  Arguments: input, inside-quote flag,
after-backslash flag. -/
def bodyScan (isP : Bool) : List Char → Bool → Bool → Option (List Char)
  | '%' :: '}' :: '}' :: r, false, _ =>
    if isP then some r else bodyScan isP ('}' :: '}' :: r) false false
  | '>' :: '}' :: '}' :: r, false, _ =>
    if isP then bodyScan isP ('}' :: '}' :: r) false false else some r
  | c :: r, false, _ =>
    if c = '"' then bodyScan isP r true false else bodyScan isP r false false
  | _ :: r, true, true => bodyScan isP r true false
  | c :: r, true, false =>
    if c = '"' then bodyScan isP r false false
    else if c = '\\' then bodyScan isP r true true
    else bodyScan isP r true false
  | [], _, _ => none

/-- The optional closing slash of the scanner pattern: skip a leading `/`
and the whitespace after it, leave anything else alone. -/
def slashSkip : List Char → List Char
  | '/' :: t => t.dropWhile isWs
  | r2 => r2

/-- The scanner pattern word boundary after the directive name: the next
character, if any, is not a word character. -/
def boundaryOkAt (l : List Char) : Bool :=
  match l.head? with
  | some c => !wordChar c
  | none => true

/-- Modelled from the spec: one anchored attempt of the scanner pattern at the
start of `cs`: opening marker, optional whitespace, optional `/`, optional
whitespace, the directive name followed by a word boundary, then `bodyScan`.
Returns the matched span and the rest of the document. -/
def matchAt (name : List Char) (isP : Bool) (cs : List Char) :
    Option (List Char × List Char) :=
  let opener := if isP then percentOpen else angleOpen
  if opener.isPrefixOf cs then
    let r3 := slashSkip ((cs.drop 3).dropWhile isWs)
    if name.isPrefixOf r3 then
      let r4 := r3.drop name.length
      if boundaryOkAt r4 then
        match bodyScan isP r4 false false with
        | some rest => some (cs.take (cs.length - rest.length), rest)
        | none => none
      else none
    else none
  else none

/-- Modelled from the spec: the document scan driven by the pattern from
`Shortcode.regex`: left-to-right, non-overlapping, resuming after each match,
advancing one character past a failed attempt.  The fuel argument bounds the
number of steps by the document length. -/
def scanDoc (name : List Char) (isP : Bool) : Nat → List Char → List (List Char)
  | 0, _ => []
  | _, [] => []
  | fuel + 1, cs@(_ :: t) =>
    match matchAt name isP cs with
    | some (span, rest) => span :: scanDoc name isP fuel rest
    | none => scanDoc name isP fuel t

/-- Modelled from the spec: applying the matcher built by
`Shortcode.regex(name, isPercentDelimited)` over a whole document, returning
every matched span in source order. -/
def regexMatches (name : List Char) (isP : Bool) (doc : List Char) : List (List Char) :=
  scanDoc name isP doc.length doc

/-- What the document scan guarantees about the spans it returns, stated
against the document: the returned spans cut the document up in source order
(so they do not overlap), each is a genuine match of the pattern at its own
position, and at no position inside the gaps before, between or after them
does the pattern match — so every matching span of the left-to-right,
resume-after-each-match scan is returned. -/
def scanLayout (name : List Char) (isP : Bool) : List Char → List (List Char) → Prop
  | doc, [] => ∀ a c b, doc = a ++ c :: b → matchAt name isP (c :: b) = none
  | doc, s :: ss => ∃ gap rest, doc = gap ++ s ++ rest ∧
      (∀ a c b, gap = a ++ c :: b → matchAt name isP (c :: (b ++ s ++ rest)) = none) ∧
      matchAt name isP (s ++ rest) = some (s, rest) ∧
      scanLayout name isP rest ss

/-- State-machine form of `unescapeQ`: the Boolean records a pending
backslash that has been read but not yet emitted. -/
def unesc : Bool → List Char → List Char
  | false, [] => []
  | true, [] => ['\\']
  | true, '"' :: r => '"' :: unesc false r
  | true, '\\' :: r => '\\' :: unesc true r
  | true, c :: r => '\\' :: c :: unesc false r
  | false, '\\' :: r => unesc true r
  | false, c :: r => c :: unesc false r

/-- The tokenizer's in-quote scan as a pure automaton: from a given
after-backslash state, return the final after-backslash state, or `none` if
the scan reaches an unescaped `"` (which would terminate a quoted span). -/
def qsc : Bool → List Char → Option Bool
  | p, [] => some p
  | true, _ :: r => qsc false r
  | false, '"' :: _ => none
  | false, '\\' :: r => qsc true r
  | false, _ :: r => qsc false r

/-- `quotesEscaped` with an explicit previous-character-is-backslash state. -/
def qeB : Bool → List Char → Bool
  | _, [] => true
  | b, '"' :: r => b && qeB false r
  | _, '\\' :: r => qeB true r
  | _, _ :: r => qeB false r

/-- Split a list at the first occurrence of the two-character sequence `\"`:
returns the part before it and the part after it. -/
def splitAtPair : List Char → Option (List Char × List Char)
  | [] => none
  | '\\' :: '"' :: r => some ([], r)
  | c :: r => (splitAtPair r).map fun p => (c :: p.1, p.2)

/-- The literal left-to-right, non-overlapping replacement of `\"` by `"`:
find the first occurrence, replace it, continue after it. -/
def specReplace (l : List Char) : List Char :=
  match h : splitAtPair l with
  | none => l
  | some (pre, post) => pre ++ '"' :: specReplace post
termination_by l.length
decreasing_by
  induction l using splitAtPair.induct generalizing pre post with
  | case1 => simp [splitAtPair] at h
  | case2 r =>
    simp only [splitAtPair, Option.some.injEq, Prod.mk.injEq] at h
    obtain ⟨h1, h2⟩ := h
    subst h2
    simp only [List.length_cons]
    omega
  | case3 c r hne ih =>
    rw [splitAtPair.eq_3 c r hne] at h
    cases hsp : splitAtPair r with
    | none => rw [hsp] at h; simp at h
    | some p =>
      obtain ⟨p1, p2⟩ := p
      rw [hsp] at h
      simp only [Option.map_some', Option.some.injEq, Prod.mk.injEq] at h
      obtain ⟨h1, h2⟩ := h
      subst h2
      have := ih p1 p2 hsp
      simp only [List.length_cons]
      omega

/-- Characters a bare (unquoted) run may hold: anything but whitespace and
the double quote. -/
def bareOk (c : Char) : Bool :=
  !isWs c && c != '"'

/-- No control characters (code points below 32). -/
def noControl (v : List Char) : Bool :=
  v.all fun c => !decide (c.toNat < 32)

/-- Well-formedness of one tokenizer segment: a bare run is nonempty and made
of bare characters; a quoted content scans cleanly (no unescaped quote inside,
no pending backslash at its end). -/
def SegWf : Seg → Prop
  | .bare b => b ≠ [] ∧ b.all bareOk = true
  | .quoted q => qsc false q = some false

/-- Well-formedness of a token: every segment is well-formed. -/
def TokenWf (t : Token) : Prop := ∀ sg ∈ t, SegWf sg

/-- Where a parsed parameter value can come from: a bare run, or the logical
value of a cleanly-scanned quoted span. -/
def ValWf (v : List Char) : Prop :=
  v.all bareOk = true ∨ ∃ q, qsc false q = some false ∧ v = valueOfQuoted q

/-- Well-formedness of a parsed parameter. -/
def ParamWf (p : ShortcodeParam) : Prop :=
  (∀ n, p.name = some n → validName n = true) ∧ ValWf p.value

/-- The token that re-parsing the serialized form of a parameter produces. -/
def tokOf (p : ShortcodeParam) : Token :=
  match p.name with
  | some n => [Seg.bare (n ++ ['=']), Seg.quoted (escapeQ p.value)]
  | none => [Seg.quoted (escapeQ p.value)]

/-- The conditions on a parameter value that make its serialized form
re-parse to itself. -/
def RenderOk (v : List Char) : Prop :=
  qsc false (escapeQ v) = some false ∧ stripTrailing (escapeQ v) = escapeQ v

/-- Well-formedness of a parsed `Shortcode`, as guaranteed by
`Shortcode.fromString`. -/
def Shortcode.Wf (s : Shortcode) : Prop :=
  validSCName s.name = true ∧
  ¬(s.isClosing = true ∧ s.isSelfClosing = true) ∧
  ((s.params.any fun p => p.name.isSome) && (s.params.any fun p => p.name.isNone)) = false ∧
  (s.isClosing = true → s.params = []) ∧
  ∀ p ∈ s.params, ParamWf p

/-! ## Lemmas about the quoted-string codec -/

theorem unesc_true_eq {r : List Char} (h : r.head? ≠ some '"') :
    unesc true r = '\\' :: unesc false r := by
  cases r with
  | nil => rfl
  | cons c r' =>
    simp only [List.head?_cons, ne_eq, Option.some.injEq] at h
    by_cases hc : c = '\\'
    · subst hc; rfl
    · rw [unesc.eq_5 c r' (fun hq => h hq) (fun hb => hc hb),
          unesc.eq_7 c r' (fun hb => hc hb)]

theorem unescapeQ_eq_unesc (l : List Char) : unescapeQ l = unesc false l := by
  induction l using unescapeQ.induct with
  | case1 => rfl
  | case2 r ih => simp only [unescapeQ, unesc, ih]
  | case3 c r hne ih =>
    rw [unescapeQ.eq_3 c r hne]
    by_cases hc : c = '\\'
    · subst hc
      have hr : r.head? ≠ some '"' := by
        cases r with
        | nil => simp
        | cons a r' =>
          simp only [List.head?_cons, ne_eq, Option.some.injEq]
          intro ha
          exact hne r' rfl (by rw [ha])
      rw [show unesc false ('\\' :: r) = unesc true r from rfl, unesc_true_eq hr, ih]
    · rw [show unesc false (c :: r) = c :: unesc false r from by
            rw [unesc.eq_7] <;> simp_all]
      rw [ih]

theorem unesc_ne_nil : ∀ (p : Bool) (l : List Char), p = true ∨ l ≠ [] → unesc p l ≠ [] := by
  intro p l h
  cases p with
  | true =>
    cases l with
    | nil => simp [unesc]
    | cons c r =>
      by_cases hq : c = '"'
      · subst hq; simp [unesc]
      · by_cases hb : c = '\\'
        · subst hb; simp [unesc]
        · rw [unesc.eq_5 c r (fun x => hq x) (fun x => hb x)]
          simp
  | false =>
    cases l with
    | nil => simp at h
    | cons c r =>
      by_cases hb : c = '\\'
      · subst hb
        rw [show unesc false ('\\' :: r) = unesc true r from rfl]
        exact unesc_ne_nil true r (.inl rfl)
      · rw [unesc.eq_7 c r (fun x => hb x)]
        simp

theorem getLast?_cons_of_ne_nil {a : Char} {l : List Char} (h : l ≠ []) :
    (a :: l).getLast? = l.getLast? := by
  cases l with
  | nil => exact absurd rfl h
  | cons b t => exact List.getLast?_cons_cons

theorem unesc_getLast_bs : ∀ (l : List Char) (p : Bool), l.getLast? = some '\\' →
    (unesc p l).getLast? = some '\\' := by
  intro l
  induction l with
  | nil => intro p h; simp at h
  | cons c r ih =>
    intro p h
    by_cases hr : r = []
    · subst hr
      simp only [List.getLast?_singleton, Option.some.injEq] at h
      subst h
      cases p with
      | false => rfl
      | true => rfl
    · rw [getLast?_cons_of_ne_nil hr] at h
      have hne : unesc false r ≠ [] := unesc_ne_nil false r (.inr hr)
      have hnet : unesc true r ≠ [] := unesc_ne_nil true r (.inl rfl)
      cases p with
      | false =>
        by_cases hc : c = '\\'
        · subst hc
          rw [show unesc false ('\\' :: r) = unesc true r from rfl]
          exact ih true h
        · rw [unesc.eq_7 c r (fun x => hc x)]
          rw [getLast?_cons_of_ne_nil hne]
          exact ih false h
      | true =>
        by_cases hq : c = '"'
        · subst hq
          rw [show unesc true ('"' :: r) = '"' :: unesc false r from rfl]
          rw [getLast?_cons_of_ne_nil hne]
          exact ih false h
        · by_cases hc : c = '\\'
          · subst hc
            rw [show unesc true ('\\' :: r) = '\\' :: unesc true r from rfl]
            rw [getLast?_cons_of_ne_nil hnet]
            exact ih true h
          · rw [unesc.eq_5 c r (fun x => hq x) (fun x => hc x)]
            rw [List.getLast?_cons_cons, getLast?_cons_of_ne_nil hne]
            exact ih false h

theorem qsc_pend : ∀ (l : List Char) (p : Bool), qsc p l = some true →
    (l = [] ∧ p = true) ∨ l.getLast? = some '\\' := by
  intro l
  induction l with
  | nil => intro p h; simp only [qsc, Option.some.injEq] at h; exact .inl ⟨rfl, h⟩
  | cons c r ih =>
    intro p h
    have step : ∃ p', qsc p' r = some true ∧ (r = [] → p' = true → c = '\\') := by
      cases p with
      | true =>
        rw [show qsc true (c :: r) = qsc false r from rfl] at h
        exact ⟨false, h, fun _ hf => by cases hf⟩
      | false =>
        by_cases hq : c = '"'
        · subst hq; simp [qsc] at h
        · by_cases hb : c = '\\'
          · subst hb
            rw [show qsc false ('\\' :: r) = qsc true r from rfl] at h
            exact ⟨true, h, fun _ _ => rfl⟩
          · rw [qsc.eq_5 c r (fun x => hq x) (fun x => hb x)] at h
            exact ⟨false, h, fun _ hf => by cases hf⟩
    obtain ⟨p', hp', hnil⟩ := step
    rcases ih p' hp' with ⟨hr, hpt⟩ | hlast
    · subst hr
      right
      simp [hnil rfl hpt]
    · right
      have hr : r ≠ [] := by
        intro hx; subst hx; simp at hlast
      rw [getLast?_cons_of_ne_nil hr]
      exact hlast

theorem qsc_prefix_isSome : ∀ (x : List Char) (y : List Char) (p : Bool),
    (qsc p (x ++ y)).isSome = true → (qsc p x).isSome = true := by
  intro x
  induction x with
  | nil => intro y p _; simp [qsc]
  | cons c r ih =>
    intro y p h
    cases p with
    | true =>
      rw [show qsc true ((c :: r) ++ y) = qsc false (r ++ y) from rfl] at h
      rw [show qsc true (c :: r) = qsc false r from rfl]
      exact ih y false h
    | false =>
      by_cases hq : c = '"'
      · subst hq
        rw [show qsc false (('"' :: r) ++ y) = none from rfl] at h
        simp at h
      · by_cases hb : c = '\\'
        · subst hb
          rw [show qsc false (('\\' :: r) ++ y) = qsc true (r ++ y) from rfl] at h
          rw [show qsc false ('\\' :: r) = qsc true r from rfl]
          exact ih y true h
        · rw [show ((c :: r) ++ y) = c :: (r ++ y) from rfl,
              qsc.eq_5 c (r ++ y) (fun x => hq x) (fun x => hb x)] at h
          rw [qsc.eq_5 c r (fun x => hq x) (fun x => hb x)]
          exact ih y false h

theorem qeB_state_irrel {r : List Char} (h : r.head? ≠ some '"') :
    qeB true r = qeB false r := by
  cases r with
  | nil => rfl
  | cons c r' =>
    simp only [List.head?_cons, ne_eq, Option.some.injEq] at h
    by_cases hb : c = '\\'
    · subst hb; rfl
    · rw [qeB.eq_4 true c r' (fun x => h x) (fun x => hb x),
          qeB.eq_4 false c r' (fun x => h x) (fun x => hb x)]

theorem qeB_mono : ∀ (l : List Char), qeB false l = true → qeB true l = true := by
  intro l h
  cases l with
  | nil => rfl
  | cons c r =>
    by_cases hq : c = '"'
    · subst hq
      simp [qeB] at h
    · by_cases hb : c = '\\'
      · subst hb; exact h
      · rw [qeB.eq_4 false c r (fun x => hq x) (fun x => hb x)] at h
        rw [qeB.eq_4 true c r (fun x => hq x) (fun x => hb x)]
        exact h

theorem qsc_qeB : ∀ (l : List Char) (p : Bool), (qsc p l).isSome = true → qeB p l = true := by
  intro l
  induction l with
  | nil => intro p _; rfl
  | cons c r ih =>
    intro p h
    cases p with
    | true =>
      rw [show qsc true (c :: r) = qsc false r from rfl] at h
      have hr := ih false h
      by_cases hq : c = '"'
      · subst hq
        simp only [qeB, Bool.true_and]
        exact hr
      · by_cases hb : c = '\\'
        · subst hb
          exact qeB_mono r hr
        · rw [qeB.eq_4 true c r (fun x => hq x) (fun x => hb x)]
          exact hr
    | false =>
      by_cases hq : c = '"'
      · subst hq
        rw [show qsc false ('"' :: r) = none from rfl] at h
        simp at h
      · by_cases hb : c = '\\'
        · subst hb
          rw [show qsc false ('\\' :: r) = qsc true r from rfl] at h
          exact ih true h
        · rw [qsc.eq_5 c r (fun x => hq x) (fun x => hb x)] at h
          rw [qeB.eq_4 false c r (fun x => hq x) (fun x => hb x)]
          exact ih false h

theorem quotesEscaped_eq_qeB (l : List Char) : quotesEscaped l = qeB false l := by
  induction l using quotesEscaped.induct with
  | case1 => rfl
  | case2 r => simp [quotesEscaped, qeB]
  | case3 r ih =>
    rw [show quotesEscaped ('\\' :: '"' :: r) = quotesEscaped r from rfl,
        show qeB false ('\\' :: '"' :: r) = qeB true ('"' :: r) from rfl]
    simp only [qeB, Bool.true_and]
    exact ih
  | case4 c r hq hne ih =>
    rw [quotesEscaped.eq_4 c r hq hne]
    by_cases hb : c = '\\'
    · subst hb
      rw [show qeB false ('\\' :: r) = qeB true r from rfl]
      have hr : r.head? ≠ some '"' := by
        cases r with
        | nil => simp
        | cons a r' =>
          simp only [List.head?_cons, ne_eq, Option.some.injEq]
          intro ha
          exact hne r' rfl (by rw [ha])
      rw [qeB_state_irrel hr]
      exact ih
    · rw [qeB.eq_4 false c r (fun x => hq x) (fun x => hb x)]
      exact ih

theorem escapeQ_unesc : ∀ (l : List Char) (p : Bool), qeB p l = true →
    escapeQ (unesc p l) = if p then '\\' :: l else l := by
  intro l
  induction l with
  | nil =>
    intro p _
    cases p with
    | false => rfl
    | true => rfl
  | cons c r ih =>
    intro p h
    cases p with
    | true =>
      by_cases hq : c = '"'
      · subst hq
        simp only [qeB, Bool.true_and] at h
        rw [show unesc true ('"' :: r) = '"' :: unesc false r from rfl]
        rw [show escapeQ ('"' :: unesc false r) = '\\' :: '"' :: escapeQ (unesc false r) from by
              simp [escapeQ]]
        rw [ih false h]
        simp
      · by_cases hb : c = '\\'
        · subst hb
          rw [show qeB true ('\\' :: r) = qeB true r from rfl] at h
          rw [show unesc true ('\\' :: r) = '\\' :: unesc true r from rfl]
          rw [show escapeQ ('\\' :: unesc true r) = '\\' :: escapeQ (unesc true r) from by
                simp [escapeQ]]
          rw [ih true h]
          simp
        · rw [qeB.eq_4 true c r (fun x => hq x) (fun x => hb x)] at h
          rw [unesc.eq_5 c r (fun x => hq x) (fun x => hb x)]
          rw [show escapeQ ('\\' :: c :: unesc false r) =
                '\\' :: c :: escapeQ (unesc false r) from by simp [escapeQ, hq]]
          rw [ih false h]
          simp
    | false =>
      by_cases hq : c = '"'
      · subst hq
        simp [qeB] at h
      · by_cases hb : c = '\\'
        · subst hb
          rw [show qeB false ('\\' :: r) = qeB true r from rfl] at h
          rw [show unesc false ('\\' :: r) = unesc true r from rfl]
          rw [ih true h]
          simp
        · rw [qeB.eq_4 false c r (fun x => hq x) (fun x => hb x)] at h
          rw [unesc.eq_7 c r (fun x => hb x)]
          rw [show escapeQ (c :: unesc false r) = c :: escapeQ (unesc false r) from by
                simp [escapeQ, hq]]
          rw [ih false h]
          simp

theorem escapeQ_head_ne_quote (r : List Char) : (escapeQ r).head? ≠ some '"' := by
  cases r with
  | nil => simp [escapeQ]
  | cons c r' =>
    by_cases hq : c = '"'
    · subst hq
      simp [escapeQ]
    · rw [show escapeQ (c :: r') = c :: escapeQ r' from by simp [escapeQ, hq]]
      simp only [List.head?_cons, ne_eq, Option.some.injEq]
      exact hq

theorem unescapeQ_escapeQ (v : List Char) : unescapeQ (escapeQ v) = v := by
  rw [unescapeQ_eq_unesc]
  induction v with
  | nil => rfl
  | cons c r ih =>
    by_cases hq : c = '"'
    · subst hq
      rw [show escapeQ ('"' :: r) = '\\' :: '"' :: escapeQ r from by simp [escapeQ]]
      rw [show unesc false ('\\' :: '"' :: escapeQ r) = '"' :: unesc false (escapeQ r) from rfl]
      rw [ih]
    · by_cases hb : c = '\\'
      · subst hb
        rw [show escapeQ ('\\' :: r) = '\\' :: escapeQ r from by simp [escapeQ]]
        rw [show unesc false ('\\' :: escapeQ r) = unesc true (escapeQ r) from rfl]
        rw [unesc_true_eq (escapeQ_head_ne_quote r), ih]
      · rw [show escapeQ (c :: r) = c :: escapeQ r from by simp [escapeQ, hq]]
        rw [unesc.eq_7 c (escapeQ r) (fun x => hb x)]
        rw [ih]

theorem qsc_no_quote : ∀ (v : List Char) (p : Bool), v.all (fun c => c != '"') = true →
    (qsc p v).isSome = true := by
  intro v
  induction v with
  | nil => intro p _; simp [qsc]
  | cons c r ih =>
    intro p h
    rw [List.all_cons, Bool.and_eq_true] at h
    obtain ⟨hc0, hr'⟩ := h
    have hc : c ≠ '"' := by simpa using hc0
    cases p with
    | true =>
      rw [show qsc true (c :: r) = qsc false r from rfl]
      exact ih false hr'
    | false =>
      by_cases hb : c = '\\'
      · subst hb
        rw [show qsc false ('\\' :: r) = qsc true r from rfl]
        exact ih true hr'
      · rw [qsc.eq_5 c r (fun x => hc x) (fun x => hb x)]
        exact ih false hr'

theorem escapeQ_no_quote : ∀ (v : List Char), v.all (fun c => c != '"') = true →
    escapeQ v = v := by
  intro v
  induction v with
  | nil => intro _; rfl
  | cons c r ih =>
    intro h
    rw [List.all_cons, Bool.and_eq_true] at h
    obtain ⟨hc0, hr⟩ := h
    have hc : c ≠ '"' := by simpa using hc0
    rw [show escapeQ (c :: r) = c :: escapeQ r from by simp [escapeQ, hc]]
    rw [ih hr]

theorem stripTrailing_eq_self {l : List Char}
    (h : ∀ c, l.getLast? = some c → c ≠ '\\' ∧ isWs c = false) : stripTrailing l = l := by
  have h1 : List.rdropWhile (fun c => c == '\\') l = l := by
    rw [List.rdropWhile_eq_self_iff]
    intro hl
    obtain ⟨hc, -⟩ := h (l.getLast hl) (List.getLast?_eq_getLast l hl)
    simp [hc]
  have h2 : List.rdropWhile isWs l = l := by
    rw [List.rdropWhile_eq_self_iff]
    intro hl
    obtain ⟨-, hw⟩ := h (l.getLast hl) (List.getLast?_eq_getLast l hl)
    simp [hw]
  unfold stripTrailing
  rw [h1, h2]

theorem bareOk_all_no_quote {v : List Char} (h : v.all bareOk = true) :
    v.all (fun c => c != '"') = true := by
  rw [List.all_eq_true] at h ⊢
  intro c hc
  have := h c hc
  unfold bareOk at this
  rw [Bool.and_eq_true] at this
  exact this.2

theorem value_renderOk (v : List Char) (hwf : ValWf v) (hbs : v.getLast? ≠ some '\\') :
    RenderOk v := by
  rcases hwf with hbare | ⟨q, hq, hv⟩
  · have hnq := bareOk_all_no_quote hbare
    have hesc : escapeQ v = v := escapeQ_no_quote v hnq
    constructor
    · rw [hesc]
      have hs := qsc_no_quote v false hnq
      cases hqv : qsc false v with
      | none => rw [hqv] at hs; simp at hs
      | some b =>
        cases b with
        | false => rfl
        | true =>
          rcases qsc_pend v false hqv with ⟨-, hpf⟩ | hlast
          · cases hpf
          · exact absurd hlast hbs
    · rw [hesc]
      apply stripTrailing_eq_self
      intro c hc
      refine ⟨fun hcb => hbs (by rw [← hcb]; exact hc), ?_⟩
      have hcv : c ∈ v := List.mem_of_mem_getLast? (Option.mem_def.mpr hc)
      have := List.all_eq_true.mp hbare c hcv
      unfold bareOk at this
      rw [Bool.and_eq_true] at this
      have hws := this.1
      cases hxx : isWs c with
      | false => rfl
      | true => rw [hxx] at hws; simp at hws
  · subst hv
    unfold valueOfQuoted at hbs ⊢
    have hpre : stripTrailing q <+: q := by
      unfold stripTrailing
      exact (List.rdropWhile_prefix _ _).trans (List.rdropWhile_prefix _ _)
    obtain ⟨y, hy⟩ := hpre
    have hsome : (qsc false (stripTrailing q)).isSome = true := by
      apply qsc_prefix_isSome (stripTrailing q) y false
      rw [hy, hq]
      rfl
    have hveq : unescapeQ (stripTrailing q) = unesc false (stripTrailing q) :=
      unescapeQ_eq_unesc (stripTrailing q)
    have hPlast : (stripTrailing q).getLast? ≠ some '\\' := by
      intro hl
      exact hbs (by rw [hveq]; exact unesc_getLast_bs (stripTrailing q) false hl)
    have hPf : qsc false (stripTrailing q) = some false := by
      cases hqv : qsc false (stripTrailing q) with
      | none => rw [hqv] at hsome; simp at hsome
      | some b =>
        cases b with
        | false => rfl
        | true =>
          rcases qsc_pend (stripTrailing q) false hqv with ⟨-, hpf⟩ | hlast
          · cases hpf
          · exact absurd hlast hPlast
    have hkey : escapeQ (unescapeQ (stripTrailing q)) = stripTrailing q := by
      rw [hveq]
      have := escapeQ_unesc (stripTrailing q) false
        (qsc_qeB (stripTrailing q) false (by rw [hPf]; rfl))
      simpa using this
    refine ⟨by rw [hkey]; exact hPf, ?_⟩
    rw [hkey]
    have h1 : List.rdropWhile (fun c => c == '\\') (stripTrailing q) = stripTrailing q := by
      rw [List.rdropWhile_eq_self_iff]
      intro hl
      intro hpred
      apply hPlast
      rw [List.getLast?_eq_getLast _ hl]
      simpa using hpred
    show stripTrailing (stripTrailing q) = stripTrailing q
    unfold stripTrailing
    rw [show List.rdropWhile (fun c => c == '\\')
          (List.rdropWhile isWs (List.rdropWhile (fun c => c == '\\') q))
          = List.rdropWhile isWs (List.rdropWhile (fun c => c == '\\') q) from h1]
    exact List.rdropWhile_idempotent _ _

theorem valueOfQuoted_escapeQ {v : List Char} (h : RenderOk v) :
    valueOfQuoted (escapeQ v) = v := by
  unfold valueOfQuoted
  rw [h.2, unescapeQ_escapeQ]

/-! ## The replacement semantics of `unescapeQ` -/

theorem splitAtPair_some_eq : ∀ {l pre post : List Char}, splitAtPair l = some (pre, post) →
    l = pre ++ '\\' :: '"' :: post := by
  intro l
  induction l using splitAtPair.induct with
  | case1 => intro pre post h; simp [splitAtPair] at h
  | case2 r =>
    intro pre post h
    simp only [splitAtPair, Option.some.injEq, Prod.mk.injEq] at h
    obtain ⟨h1, h2⟩ := h
    subst h1; subst h2
    rfl
  | case3 c r hne ih =>
    intro pre post h
    rw [splitAtPair.eq_3 c r hne] at h
    cases hsp : splitAtPair r with
    | none => rw [hsp] at h; simp at h
    | some p =>
      obtain ⟨p1, p2⟩ := p
      rw [hsp] at h
      simp only [Option.map_some', Option.some.injEq, Prod.mk.injEq] at h
      obtain ⟨h1, h2⟩ := h
      subst h1; subst h2
      rw [ih hsp]
      rfl

theorem splitAtPair_pre_none : ∀ {l pre post : List Char}, splitAtPair l = some (pre, post) →
    splitAtPair pre = none := by
  intro l
  induction l using splitAtPair.induct with
  | case1 => intro pre post h; simp [splitAtPair] at h
  | case2 r =>
    intro pre post h
    simp only [splitAtPair, Option.some.injEq, Prod.mk.injEq] at h
    obtain ⟨h1, -⟩ := h
    subst h1
    rfl
  | case3 c r hne ih =>
    intro pre post h
    rw [splitAtPair.eq_3 c r hne] at h
    cases hsp : splitAtPair r with
    | none => rw [hsp] at h; simp at h
    | some p =>
      obtain ⟨p1, p2⟩ := p
      rw [hsp] at h
      simp only [Option.map_some', Option.some.injEq, Prod.mk.injEq] at h
      obtain ⟨h1, -⟩ := h
      subst h1
      have hp1 : splitAtPair p1 = none := ih hsp
      have hside : ∀ (r1 : List Char), c = '\\' → p1 = '"' :: r1 → False := by
        intro r1 hc hp
        subst hc
        subst hp
        have := splitAtPair_some_eq hsp
        exact hne (r1 ++ '\\' :: '"' :: p2) rfl (by rw [this]; rfl)
      rw [splitAtPair.eq_3 c p1 hside, hp1]
      rfl

theorem unescapeQ_of_no_pair : ∀ {l : List Char}, splitAtPair l = none → unescapeQ l = l := by
  intro l
  induction l using splitAtPair.induct with
  | case1 => intro _; rfl
  | case2 r => intro h; simp [splitAtPair] at h
  | case3 c r hne ih =>
    intro h
    rw [splitAtPair.eq_3 c r hne] at h
    cases hsp : splitAtPair r with
    | some p => rw [hsp] at h; simp at h
    | none =>
      rw [unescapeQ.eq_3 c r hne, ih hsp]

theorem unescapeQ_append_pair : ∀ {l : List Char}, splitAtPair l = none →
    ∀ (post : List Char), unescapeQ (l ++ '\\' :: '"' :: post) = l ++ '"' :: unescapeQ post := by
  intro l
  induction l using splitAtPair.induct with
  | case1 => intro _ post; rfl
  | case2 r => intro h; simp [splitAtPair] at h
  | case3 c r hne ih =>
    intro h post
    rw [splitAtPair.eq_3 c r hne] at h
    cases hsp : splitAtPair r with
    | some p => rw [hsp] at h; simp at h
    | none =>
      have hside : ∀ (r1 : List Char), c = '\\' → r ++ '\\' :: '"' :: post = '"' :: r1 → False := by
        intro r1 hc hr
        cases r with
        | nil => simp at hr
        | cons a r' =>
          simp only [List.cons_append, List.cons.injEq] at hr
          exact hne r' hc (by rw [hr.1])
      rw [show (c :: r) ++ '\\' :: '"' :: post = c :: (r ++ '\\' :: '"' :: post) from rfl]
      rw [unescapeQ.eq_3 c (r ++ '\\' :: '"' :: post) hside]
      rw [ih hsp post]
      rfl

theorem specReplace_eq_none {l : List Char} (h : splitAtPair l = none) : specReplace l = l := by
  conv_lhs => rw [specReplace.eq_def]
  rw [h]

theorem specReplace_eq_some {l pre post : List Char} (h : splitAtPair l = some (pre, post)) :
    specReplace l = pre ++ '"' :: specReplace post := by
  conv_lhs => rw [specReplace.eq_def]
  rw [h]

theorem unescapeQ_eq_specReplace (l : List Char) : unescapeQ l = specReplace l := by
  have H : ∀ (n : Nat) (l : List Char), l.length ≤ n → unescapeQ l = specReplace l := by
    intro n
    induction n with
    | zero =>
      intro l hl
      have : l = [] := List.eq_nil_of_length_eq_zero (Nat.le_zero.mp hl)
      subst this
      rw [specReplace_eq_none (show splitAtPair [] = none from rfl)]
      rfl
    | succ n ih =>
      intro l hl
      cases hsp : splitAtPair l with
      | none => rw [specReplace_eq_none hsp, unescapeQ_of_no_pair hsp]
      | some p =>
        obtain ⟨pre, post⟩ := p
        have hleq := splitAtPair_some_eq hsp
        have hnone := splitAtPair_pre_none hsp
        rw [specReplace_eq_some hsp]
        rw [hleq, unescapeQ_append_pair hnone post]
        have hlen : post.length ≤ n := by
          rw [hleq] at hl
          simp only [List.length_append, List.length_cons] at hl
          omega
        rw [ih post hlen]
  exact H l.length l le_rfl

/-! ## The validity predicate of `unescapeStringQuotedWith` -/

theorem quotesEscaped_false_iff : ∀ (l : List Char), quotesEscaped l = false ↔
    ∃ pre post, l = pre ++ '"' :: post ∧ (pre = [] ∨ pre.getLast? ≠ some '\\') := by
  intro l
  induction l using quotesEscaped.induct with
  | case1 =>
    simp only [quotesEscaped, Bool.true_eq_false, false_iff, not_exists]
    intro pre post h
    obtain ⟨h1, -⟩ := h
    have h2 := List.append_eq_nil.mp h1.symm
    exact absurd h2.2 (List.cons_ne_nil _ _)
  | case2 r =>
    simp only [quotesEscaped, true_iff]
    exact ⟨[], r, rfl, .inl rfl⟩
  | case3 r ih =>
    rw [show quotesEscaped ('\\' :: '"' :: r) = quotesEscaped r from rfl, ih]
    constructor
    · rintro ⟨pre, post, hr, hcond⟩
      refine ⟨'\\' :: '"' :: pre, post, by rw [hr]; rfl, .inr ?_⟩
      by_cases hp : pre = []
      · subst hp
        simp
      · rw [getLast?_cons_of_ne_nil (by simp), getLast?_cons_of_ne_nil hp]
        rcases hcond with h1 | h2
        · exact absurd h1 hp
        · exact h2
    · rintro ⟨pre, post, hr, hcond⟩
      cases pre with
      | nil => simp at hr
      | cons c1 pre1 =>
        simp only [List.cons_append, List.cons.injEq] at hr
        obtain ⟨hc1, hr⟩ := hr
        subst hc1
        cases pre1 with
        | nil =>
          exfalso
          rcases hcond with h1 | h2
          · cases h1
          · simp at h2
        | cons c2 pre2 =>
          simp only [List.cons_append, List.cons.injEq] at hr
          obtain ⟨hc2, hr⟩ := hr
          subst hc2
          refine ⟨pre2, post, hr, ?_⟩
          by_cases hp : pre2 = []
          · exact .inl hp
          · right
            rcases hcond with h1 | h2
            · cases h1
            · rwa [getLast?_cons_of_ne_nil (by simp), getLast?_cons_of_ne_nil hp] at h2
  | case4 c r hq hne ih =>
    rw [quotesEscaped.eq_4 c r hq hne, ih]
    constructor
    · rintro ⟨pre, post, hr, hcond⟩
      refine ⟨c :: pre, post, by rw [hr]; rfl, .inr ?_⟩
      by_cases hp : pre = []
      · subst hp
        simp only [List.nil_append] at hr
        simp only [List.getLast?_singleton, ne_eq, Option.some.injEq]
        intro hc
        exact hne post hc hr
      · rw [getLast?_cons_of_ne_nil hp]
        rcases hcond with h1 | h2
        · exact absurd h1 hp
        · exact h2
    · rintro ⟨pre, post, hr, hcond⟩
      cases pre with
      | nil =>
        exfalso
        simp only [List.nil_append, List.cons.injEq] at hr
        exact hq hr.1
      | cons c1 pre1 =>
        simp only [List.cons_append, List.cons.injEq] at hr
        obtain ⟨hc1, hr⟩ := hr
        subst hc1
        refine ⟨pre1, post, hr, ?_⟩
        by_cases hp : pre1 = []
        · exact .inl hp
        · right
          rcases hcond with h1 | h2
          · cases h1
          · rwa [getLast?_cons_of_ne_nil hp] at h2

theorem outerQuoted_iff (l : List Char) : outerQuoted l = true ↔
    (2 ≤ l.length ∧ l.head? = some '"' ∧ l.getLast? = some '"') := by
  unfold outerQuoted
  simp [and_assoc]

theorem qeB_escapeQ : ∀ (v : List Char) (p : Bool), qeB p (escapeQ v) = true := by
  intro v
  induction v with
  | nil => intro p; rfl
  | cons c r ih =>
    intro p
    by_cases hq : c = '"'
    · subst hq
      rw [show escapeQ ('"' :: r) = '\\' :: '"' :: escapeQ r from by simp [escapeQ]]
      rw [show qeB p ('\\' :: '"' :: escapeQ r) = qeB true ('"' :: escapeQ r) from rfl]
      simp only [qeB, Bool.true_and]
      exact ih false
    · rw [show escapeQ (c :: r) = c :: escapeQ r from by simp [escapeQ, hq]]
      by_cases hb : c = '\\'
      · subst hb
        rw [show qeB p ('\\' :: escapeQ r) = qeB true (escapeQ r) from rfl]
        exact ih true
      · rw [qeB.eq_4 p c (escapeQ r) (fun x => hq x) (fun x => hb x)]
        exact ih false

/-! ## Claims about the quoted-string codec -/

/-- **C3.** For every input literal accepted by `unescapeStringQuotedWith`,
the result equals the interior between the outer quotes with each
two-character sequence `\"` replaced by `"`, scanning left-to-right,
non-overlapping, consuming exactly one backslash per replacement and keeping
all other backslashes verbatim (`specReplace`); in particular the quoted
literal whose interior is four backslashes followed by an escaped quote
unescapes to four backslashes followed by a quote. -/
theorem claim_C3 :
    (∀ (lit res : List Char), unescapeStringQuotedWith lit = .ok res →
        res = specReplace (interiorOf lit)) ∧
    unescapeStringQuotedWith
        ('"' :: '\\' :: '\\' :: '\\' :: '\\' :: '\\' :: '"' :: ['"'])
      = .ok ('\\' :: '\\' :: '\\' :: '\\' :: ['"']) := by
  constructor
  · intro lit res h
    unfold unescapeStringQuotedWith at h
    by_cases hc : (outerQuoted lit && quotesEscaped (interiorOf lit)) = true
    · rw [if_pos hc] at h
      simp only [Except.ok.injEq] at h
      rw [← h]
      exact unescapeQ_eq_specReplace _
    · rw [if_neg hc] at h
      simp at h
  · decide

/-- Witness for C3: the theorem applied at the concrete literal `"a\"b"`. -/
theorem claim_C3_witness :
    unescapeStringQuotedWith ('"' :: 'a' :: '\\' :: '"' :: 'b' :: ['"'])
        = .ok ('a' :: '"' :: ['b']) ∧
    ('a' :: '"' :: ['b'])
        = specReplace (interiorOf ('"' :: 'a' :: '\\' :: '"' :: 'b' :: ['"'])) :=
  ⟨by decide, claim_C3.1 _ _ (by decide)⟩

/-- **C4.** `unescapeStringQuotedWith` fails — with a `FormatError` whose
message contains "not a valid `"`-quoted string" — exactly when the literal
does not both begin and end with an outer `"`, or some `"` strictly between
the outer quotes is not immediately preceded by a backslash; otherwise it
succeeds. -/
theorem claim_C4 (lit : List Char) :
    (∃ e, unescapeStringQuotedWith lit = .error e ∧
        List.IsInfix ("not a valid \"-quoted string".toList) e.message) ↔
      (¬(2 ≤ lit.length ∧ lit.head? = some '"' ∧ lit.getLast? = some '"') ∨
        ∃ pre post, interiorOf lit = pre ++ '"' :: post ∧
          (pre = [] ∨ pre.getLast? ≠ some '\\')) := by
  unfold unescapeStringQuotedWith
  by_cases hc : (outerQuoted lit && quotesEscaped (interiorOf lit)) = true
  · rw [if_pos hc]
    rw [Bool.and_eq_true] at hc
    obtain ⟨ho, hq⟩ := hc
    constructor
    · rintro ⟨e, he, -⟩
      simp at he
    · intro hr
      exfalso
      rcases hr with houter | hbad
      · exact houter ((outerQuoted_iff lit).mp ho)
      · have := (quotesEscaped_false_iff (interiorOf lit)).mpr hbad
        rw [hq] at this
        cases this
  · rw [if_neg hc]
    constructor
    · intro _
      by_cases ho : outerQuoted lit = true
      · have hq : quotesEscaped (interiorOf lit) = false := by
          cases hx : quotesEscaped (interiorOf lit) with
          | false => rfl
          | true => exact absurd (by rw [ho, hx]; rfl) hc
        right
        exact (quotesEscaped_false_iff _).mp hq
      · left
        intro ⟨h1, h2, h3⟩
        exact ho ((outerQuoted_iff lit).mpr ⟨h1, h2, h3⟩)
    · intro _
      exact ⟨.notQuoted, rfl, List.infix_rfl⟩

/-- **C5.** For every string `v` without control characters, escaping then
unescaping round-trips: `unescapeStringQuotedWith` of a double quote, then
`escapeQ v` (which replaces each `"` by `\"` and leaves every other
character, including pre-existing backslashes, unchanged), then a double
quote, yields `v` itself. -/
theorem claim_C5 (v : List Char) (hv : noControl v = true) :
    unescapeStringQuotedWith ('"' :: (escapeQ v ++ ['"'])) = .ok v := by
  have hout : outerQuoted ('"' :: (escapeQ v ++ ['"'])) = true := by
    rw [outerQuoted_iff]
    refine ⟨?_, rfl, ?_⟩
    · simp only [List.length_cons, List.length_append, List.length_singleton]
      omega
    · rw [show '"' :: (escapeQ v ++ ['"']) = ('"' :: escapeQ v) ++ ['"'] from rfl,
          List.getLast?_concat]
  have hint : interiorOf ('"' :: (escapeQ v ++ ['"'])) = escapeQ v := by
    unfold interiorOf
    simp only [List.drop_one, List.tail_cons]
    exact List.dropLast_concat
  have hqe : quotesEscaped (escapeQ v) = true := by
    rw [quotesEscaped_eq_qeB]
    exact qeB_escapeQ v false
  unfold unescapeStringQuotedWith
  rw [hint, hout, hqe]
  simp [unescapeQ_escapeQ]

/-- Witness for C5: the theorem applied at a concrete value with quotes and
backslashes. -/
theorem claim_C5_witness :
    noControl ('a' :: '"' :: '\\' :: ['b']) = true ∧
    unescapeStringQuotedWith ('"' :: (escapeQ ('a' :: '"' :: '\\' :: ['b']) ++ ['"']))
      = .ok ('a' :: '"' :: '\\' :: ['b']) :=
  ⟨by decide, claim_C5 _ (by decide)⟩

/-! ## Running the tokenizer over rendered text -/

theorem wordChar_bareOk {c : Char} (h : wordChar c = true) : bareOk c = true := by
  by_cases h1 : c = ' '
  · subst h1; exact absurd h (by decide)
  by_cases h2 : c = '\t'
  · subst h2; exact absurd h (by decide)
  by_cases h3 : c = '\n'
  · subst h3; exact absurd h (by decide)
  by_cases h4 : c = '\r'
  · subst h4; exact absurd h (by decide)
  by_cases h5 : c = '"'
  · subst h5; exact absurd h (by decide)
  unfold bareOk isWs
  simp [h1, h2, h3, h4, h5]

theorem nameChar_bareOk {c : Char} (h : nameChar c = true) : bareOk c = true := by
  by_cases h1 : c = ' '
  · subst h1; exact absurd h (by decide)
  by_cases h2 : c = '\t'
  · subst h2; exact absurd h (by decide)
  by_cases h3 : c = '\n'
  · subst h3; exact absurd h (by decide)
  by_cases h4 : c = '\r'
  · subst h4; exact absurd h (by decide)
  by_cases h5 : c = '"'
  · subst h5; exact absurd h (by decide)
  unfold bareOk isWs
  simp [h1, h2, h3, h4, h5]

theorem wordChar_not_ws {c : Char} (h : wordChar c = true) : isWs c = false := by
  have := wordChar_bareOk h
  unfold bareOk at this
  rw [Bool.and_eq_true] at this
  cases hx : isWs c with
  | false => rfl
  | true => rw [hx] at this; simp at this

theorem tokRun_outside_irrel : ∀ (cs : List Char) (b b' : Bool) (qa qa' cb : List Char)
    (segs : List Seg) (toks : List Token),
    tokRun cs false b qa cb segs toks = tokRun cs false b' qa' cb segs toks := by
  intro cs
  induction cs with
  | nil => intro b b' qa qa' cb segs toks; rfl
  | cons c r ih =>
    intro b b' qa qa' cb segs toks
    show (if isWs c then tokRun r false false [] [] [] (flushTok cb segs toks)
          else if c = '"' then tokRun r true false [] [] (flushBare cb segs) toks
          else tokRun r false false qa (c :: cb) segs toks)
        = (if isWs c then tokRun r false false [] [] [] (flushTok cb segs toks)
          else if c = '"' then tokRun r true false [] [] (flushBare cb segs) toks
          else tokRun r false false qa' (c :: cb) segs toks)
    by_cases hw : isWs c
    · rw [if_pos hw, if_pos hw]
    · rw [if_neg hw, if_neg hw]
      by_cases hq : c = '"'
      · rw [if_pos hq, if_pos hq]
      · rw [if_neg hq, if_neg hq]
        exact ih false false qa qa' (c :: cb) segs toks

theorem tokRun_bare_run : ∀ (bs : List Char), bs.all bareOk = true →
    ∀ (cs : List Char) (b : Bool) (qa cb : List Char) (segs : List Seg) (toks : List Token),
    tokRun (bs ++ cs) false b qa cb segs toks
      = tokRun cs false false qa (bs.reverse ++ cb) segs toks := by
  intro bs
  induction bs with
  | nil =>
    intro _ cs b qa cb segs toks
    simp only [List.nil_append, List.reverse_nil]
    exact tokRun_outside_irrel cs b false qa qa cb segs toks
  | cons c bs' ih =>
    intro hall cs b qa cb segs toks
    rw [List.all_cons, Bool.and_eq_true] at hall
    obtain ⟨hc, hall'⟩ := hall
    unfold bareOk at hc
    rw [Bool.and_eq_true] at hc
    have hw : isWs c = false := by
      cases hx : isWs c with
      | false => rfl
      | true => rw [hx] at hc; simp at hc
    have hq : c ≠ '"' := by
      have := hc.2
      simpa using this
    show (if isWs c then tokRun (bs' ++ cs) false false [] [] [] (flushTok cb segs toks)
          else if c = '"' then tokRun (bs' ++ cs) true false [] [] (flushBare cb segs) toks
          else tokRun (bs' ++ cs) false false qa (c :: cb) segs toks)
        = tokRun cs false false qa ((c :: bs').reverse ++ cb) segs toks
    rw [hw]
    simp only [Bool.false_eq_true, if_false]
    rw [if_neg hq]
    rw [ih hall' cs false qa (c :: cb) segs toks]
    simp [List.append_assoc]

theorem tokRun_quoted_run : ∀ (q : List Char) (aB : Bool), qsc aB q = some false →
    ∀ (cs : List Char) (qa cb : List Char) (segs : List Seg) (toks : List Token),
    tokRun (q ++ '"' :: cs) true aB qa cb segs toks
      = tokRun cs false false [] [] (Seg.quoted (qa.reverse ++ q) :: segs) toks := by
  intro q
  induction q with
  | nil =>
    intro aB hq cs qa cb segs toks
    simp only [qsc, Option.some.injEq] at hq
    subst hq
    show tokRun ('"' :: cs) true false qa cb segs toks = _
    show (if '"' = '"' then tokRun cs false false [] [] (Seg.quoted qa.reverse :: segs) toks
          else if '"' = '\\' then tokRun cs true true ('\\' :: qa) cb segs toks
          else tokRun cs true false ('"' :: qa) cb segs toks) = _
    rw [if_pos rfl]
    simp
  | cons c q' ih =>
    intro aB hq cs qa cb segs toks
    cases aB with
    | true =>
      rw [show qsc true (c :: q') = qsc false q' from rfl] at hq
      show tokRun (q' ++ '"' :: cs) true false (c :: qa) cb segs toks = _
      rw [ih false hq cs (c :: qa) cb segs toks]
      simp [List.append_assoc]
    | false =>
      by_cases hcq : c = '"'
      · subst hcq
        rw [show qsc false ('"' :: q') = none from rfl] at hq
        cases hq
      · by_cases hcb : c = '\\'
        · subst hcb
          rw [show qsc false ('\\' :: q') = qsc true q' from rfl] at hq
          show (if ('\\' : Char) = '"' then
                  tokRun (q' ++ '"' :: cs) false false [] [] (Seg.quoted qa.reverse :: segs) toks
                else if ('\\' : Char) = '\\' then
                  tokRun (q' ++ '"' :: cs) true true ('\\' :: qa) cb segs toks
                else tokRun (q' ++ '"' :: cs) true false ('\\' :: qa) cb segs toks) = _
          rw [if_neg (by decide), if_pos rfl]
          rw [ih true hq cs ('\\' :: qa) cb segs toks]
          simp [List.append_assoc]
        · rw [qsc.eq_5 c q' (fun x => hcq x) (fun x => hcb x)] at hq
          show (if c = '"' then
                  tokRun (q' ++ '"' :: cs) false false [] [] (Seg.quoted qa.reverse :: segs) toks
                else if c = '\\' then
                  tokRun (q' ++ '"' :: cs) true true ('\\' :: qa) cb segs toks
                else tokRun (q' ++ '"' :: cs) true false (c :: qa) cb segs toks) = _
          rw [if_neg hcq, if_neg hcb]
          rw [ih false hq cs (c :: qa) cb segs toks]
          simp [List.append_assoc]

theorem tokRun_ws_step (c : Char) (hc : isWs c = true) (cs : List Char) (b : Bool)
    (qa cb : List Char) (segs : List Seg) (toks : List Token) :
    tokRun (c :: cs) false b qa cb segs toks
      = tokRun cs false false [] [] [] (flushTok cb segs toks) := by
  show (if isWs c then tokRun cs false false [] [] [] (flushTok cb segs toks)
        else if c = '"' then tokRun cs true false [] [] (flushBare cb segs) toks
        else tokRun cs false false qa (c :: cb) segs toks) = _
  rw [hc]
  simp

theorem validName_all_bareOk {n : List Char} (h : validName n = true) :
    (n ++ ['=']).all bareOk = true := by
  unfold validName at h
  rw [Bool.and_eq_true] at h
  rw [List.all_append]
  rw [Bool.and_eq_true]
  constructor
  · rw [List.all_eq_true] at h ⊢
    intro c hc
    exact nameChar_bareOk (h.2 c hc)
  · decide

theorem tokOf_ne_nil (p : ShortcodeParam) : tokOf p ≠ [] := by
  unfold tokOf
  cases p.name <;> simp

theorem tokRun_renderP (p : ShortcodeParam) (hn : ∀ n, p.name = some n → validName n = true)
    (hq : qsc false (escapeQ p.value) = some false) :
    ∀ (cs : List Char) (b : Bool) (qa : List Char) (segs : List Seg) (toks : List Token),
    tokRun (p.toHugo ++ cs) false b qa [] segs toks
      = tokRun cs false false [] [] ((tokOf p).reverse ++ segs) toks := by
  intro cs b qa segs toks
  obtain ⟨v, nm⟩ := p
  cases nm with
  | none =>
    show tokRun (('"' :: (escapeQ v ++ ['"'])) ++ cs) false b qa [] segs toks = _
    rw [show ('"' :: (escapeQ v ++ ['"'])) ++ cs = '"' :: (escapeQ v ++ '"' :: cs) from by
          simp [List.append_assoc]]
    show (if isWs '"' then tokRun (escapeQ v ++ '"' :: cs) false false [] [] []
            (flushTok [] segs toks)
          else if ('"' : Char) = '"' then tokRun (escapeQ v ++ '"' :: cs) true false [] []
            (flushBare [] segs) toks
          else tokRun (escapeQ v ++ '"' :: cs) false false qa ('"' :: []) segs toks) = _
    rw [show isWs '"' = false from rfl]
    simp only [Bool.false_eq_true, if_false, if_pos rfl]
    rw [tokRun_quoted_run (escapeQ v) false hq cs [] [] (flushBare [] segs) toks]
    simp [flushBare, tokOf]
  | some n =>
    have hvn : validName n = true := hn n rfl
    show tokRun (((n ++ ['=']) ++ '"' :: (escapeQ v ++ ['"'])) ++ cs) false b qa [] segs toks = _
    rw [show ((n ++ ['=']) ++ '"' :: (escapeQ v ++ ['"'])) ++ cs
          = (n ++ ['=']) ++ ('"' :: (escapeQ v ++ '"' :: cs)) from by simp [List.append_assoc]]
    rw [tokRun_bare_run (n ++ ['=']) (validName_all_bareOk hvn) _ b qa [] segs toks]
    show (if isWs '"' then tokRun (escapeQ v ++ '"' :: cs) false false [] [] []
            (flushTok ((n ++ ['=']).reverse ++ []) segs toks)
          else if ('"' : Char) = '"' then tokRun (escapeQ v ++ '"' :: cs) true false [] []
            (flushBare ((n ++ ['=']).reverse ++ []) segs) toks
          else tokRun (escapeQ v ++ '"' :: cs) false false qa
            ('"' :: ((n ++ ['=']).reverse ++ [])) segs toks) = _
    rw [show isWs '"' = false from rfl]
    simp only [Bool.false_eq_true, if_false, if_pos rfl]
    rw [show flushBare ((n ++ ['=']).reverse ++ []) segs
          = Seg.bare (n ++ ['=']) :: segs from by
        unfold flushBare
        rw [if_neg (by simp)]
        simp]
    rw [tokRun_quoted_run (escapeQ v) false hq cs [] [] _ toks]
    simp [tokOf]

theorem tokRun_params_loop : ∀ (ps : List ShortcodeParam),
    (∀ p ∈ ps, (∀ n, p.name = some n → validName n = true) ∧
        qsc false (escapeQ p.value) = some false) →
    ∀ (b : Bool) (qa cb : List Char) (segs : List Seg) (toks : List Token),
    tokRun ((ps.map fun p => ' ' :: p.toHugo).flatten) false b qa cb segs toks
      = .ok (((ps.map tokOf).reverse ++ flushTok cb segs toks).reverse) := by
  intro ps
  induction ps with
  | nil =>
    intro _ b qa cb segs toks
    show tokRun [] false b qa cb segs toks = Except.ok (flushTok cb segs toks).reverse
    rfl
  | cons p ps' ih =>
    intro hps b qa cb segs toks
    have hp := hps p (by simp)
    have hps' : ∀ p ∈ ps', (∀ n, p.name = some n → validName n = true) ∧
        qsc false (escapeQ p.value) = some false := fun x hx => hps x (by simp [hx])
    rw [show ((p :: ps').map fun p => ' ' :: p.toHugo).flatten
          = ' ' :: (p.toHugo ++ (ps'.map fun p => ' ' :: p.toHugo).flatten) from by simp]
    rw [tokRun_ws_step ' ' rfl _ b qa cb segs toks]
    rw [tokRun_renderP p hp.1 hp.2 _ false [] [] (flushTok cb segs toks)]
    rw [ih hps' false [] [] ((tokOf p).reverse ++ []) (flushTok cb segs toks)]
    rw [show flushTok [] ((tokOf p).reverse ++ []) (flushTok cb segs toks)
          = tokOf p :: flushTok cb segs toks from by
        unfold flushTok flushBare
        simp only [List.isEmpty_nil, if_true, List.append_nil]
        have : (tokOf p).reverse ≠ [] := by
          simp only [ne_eq, List.reverse_eq_nil_iff]
          exact tokOf_ne_nil p
        match hx : (tokOf p).reverse, this with
        | t :: ts, _ => simp [← hx]
        | [], hfalse => exact absurd rfl hfalse]
    simp [List.append_assoc]

theorem tokenize_render (nm : List Char) (hnm : nm ≠ [] ∧ nm.all bareOk = true)
    (ps : List ShortcodeParam)
    (hps : ∀ p ∈ ps, (∀ n, p.name = some n → validName n = true) ∧
        qsc false (escapeQ p.value) = some false) :
    tokenize (nm ++ (ps.map fun p => ' ' :: p.toHugo).flatten)
      = .ok ([Seg.bare nm] :: ps.map tokOf) := by
  unfold tokenize
  rw [tokRun_bare_run nm hnm.2 _ false [] [] [] []]
  rw [tokRun_params_loop ps hps false [] (nm.reverse ++ []) [] []]
  rw [show flushTok (nm.reverse ++ []) [] [] = [[Seg.bare nm]] from by
      unfold flushTok flushBare
      rw [if_neg (by simp [hnm.1])]
      simp]
  simp

theorem mapParams_tokOf : ∀ (ps : List ShortcodeParam),
    (∀ p ∈ ps, (∀ n, p.name = some n → validName n = true) ∧ RenderOk p.value) →
    mapParams (ps.map tokOf) = .ok ps := by
  intro ps
  induction ps with
  | nil => intro _; rfl
  | cons p ps' ih =>
    intro hps
    have hp := hps p (by simp)
    have hps' : ∀ x ∈ ps', (∀ n, x.name = some n → validName n = true) ∧ RenderOk x.value :=
      fun x hx => hps x (by simp [hx])
    have hone : paramOfToken (tokOf p) = .ok p := by
      obtain ⟨v, nm⟩ := p
      have hpv : RenderOk v := hp.2
      cases nm with
      | none =>
        show paramOfToken [Seg.quoted (escapeQ v)] = _
        rw [show paramOfToken [Seg.quoted (escapeQ v)]
              = .ok ⟨valueOfQuoted (escapeQ v), none⟩ from rfl]
        rw [valueOfQuoted_escapeQ hpv]
      | some n =>
        have hvn : validName n = true := hp.1 n rfl
        show paramOfToken [Seg.bare (n ++ ['=']), Seg.quoted (escapeQ v)] = _
        rw [show paramOfToken [Seg.bare (n ++ ['=']), Seg.quoted (escapeQ v)]
              = if ((n ++ ['=']).getLast? == some '=' && validName (n ++ ['=']).dropLast) = true
                then Except.ok (⟨valueOfQuoted (escapeQ v), some (n ++ ['=']).dropLast⟩ :
                  ShortcodeParam)
                else Except.error FmtErr.badParam from rfl]
        rw [if_pos]
        · rw [valueOfQuoted_escapeQ hpv]
          rw [show (n ++ ['=']).dropLast = n from List.dropLast_concat]
        · rw [Bool.and_eq_true]
          constructor
          · rw [List.getLast?_concat]
            simp
          · rw [show (n ++ ['=']).dropLast = n from List.dropLast_concat]
            exact hvn
    show mapParams (tokOf p :: ps'.map tokOf) = _
    unfold mapParams
    rw [hone, ih hps']
    rfl

/-! ## Re-parsing serialized shortcodes -/

theorem delimKind_append_percent (x : List Char) :
    delimKind (percentOpen ++ (x ++ percentClose)) = some true := by
  unfold delimKind
  rw [if_pos]
  rw [Bool.and_eq_true]
  constructor
  · rw [List.isPrefixOf_iff_prefix]
    exact List.prefix_append _ _
  · rw [List.isSuffixOf_iff_suffix]
    rw [show percentOpen ++ (x ++ percentClose) = (percentOpen ++ x) ++ percentClose from by
          simp [List.append_assoc]]
    exact List.suffix_append _ _

theorem delimKind_append_angle (x : List Char) :
    delimKind (angleOpen ++ (x ++ angleClose)) = some false := by
  unfold delimKind
  rw [if_neg, if_pos]
  · rw [Bool.and_eq_true]
    constructor
    · rw [List.isPrefixOf_iff_prefix]
      exact List.prefix_append _ _
    · rw [List.isSuffixOf_iff_suffix]
      rw [show angleOpen ++ (x ++ angleClose) = (angleOpen ++ x) ++ angleClose from by
            simp [List.append_assoc]]
      exact List.suffix_append _ _
  · rw [show List.isPrefixOf percentOpen (angleOpen ++ (x ++ angleClose)) = false from rfl]
    simp

theorem rawInterior_of (op x cl : List Char) (hop : op.length = 3) (hcl : cl.length = 3) :
    rawInterior (op ++ (x ++ cl)) = x := by
  unfold rawInterior dropLastN
  rw [← hop, List.drop_left]
  rw [List.length_append, hcl]
  rw [show x.length + 3 - op.length = x.length from by omega]
  exact List.take_left x cl

theorem paramToHugo_concat (p : ShortcodeParam) : ∃ x, p.toHugo = x ++ ['"'] := by
  obtain ⟨v, nm⟩ := p
  cases nm with
  | none =>
    refine ⟨'"' :: escapeQ v, ?_⟩
    show '"' :: (escapeQ v ++ ['"']) = ('"' :: escapeQ v) ++ ['"']
    simp
  | some n =>
    refine ⟨(n ++ ['=']) ++ '"' :: escapeQ v, ?_⟩
    show (n ++ ['=']) ++ '"' :: (escapeQ v ++ ['"']) = ((n ++ ['=']) ++ '"' :: escapeQ v) ++ ['"']
    simp

theorem paramsR_concat (ps : List ShortcodeParam) (hne : ps ≠ []) :
    ∃ x, (ps.map fun p => ' ' :: p.toHugo).flatten = x ++ ['"'] := by
  induction ps with
  | nil => exact absurd rfl hne
  | cons p ps' ih =>
    cases hx : ps' with
    | nil =>
      obtain ⟨y, hy⟩ := paramToHugo_concat p
      refine ⟨' ' :: y, ?_⟩
      simp [hy]
    | cons q qs =>
      obtain ⟨y, hy⟩ := ih (by simp [hx])
      rw [← hx]
      refine ⟨' ' :: p.toHugo ++ y, ?_⟩
      rw [show ((p :: ps').map fun p => ' ' :: p.toHugo).flatten
            = (' ' :: p.toHugo) ++ (ps'.map fun p => ' ' :: p.toHugo).flatten from by simp]
      rw [hy]
      simp

theorem validSCName_facts {nm : List Char} (h : validSCName nm = true) :
    nm ≠ [] ∧ nm.all bareOk = true ∧ nm.all wordChar = true := by
  unfold validSCName at h
  rw [Bool.and_eq_true] at h
  obtain ⟨h1, h2⟩ := h
  refine ⟨by simpa using h1, ?_, h2⟩
  rw [List.all_eq_true] at h2 ⊢
  intro c hc
  exact wordChar_bareOk (h2 c hc)

theorem trim_of_wordlike {nm : List Char} (h : validSCName nm = true) : trim nm = nm := by
  obtain ⟨hne, -, hall⟩ := validSCName_facts h
  rw [List.all_eq_true] at hall
  unfold trim trimL trimR
  cases hx : nm with
  | nil => exact absurd hx hne
  | cons c t =>
    have hcw : isWs c = false := wordChar_not_ws (hall c (by rw [hx]; simp))
    rw [List.dropWhile_cons, hcw]
    simp only [Bool.false_eq_true, if_false]
    rw [List.rdropWhile_eq_self_iff]
    intro hl
    have hmem : (c :: t).getLast hl ∈ (c :: t) := List.getLast_mem hl
    have := hall ((c :: t).getLast hl) (by rw [hx]; exact hmem)
    rw [wordChar_not_ws this]
    simp

theorem selfCloseSplit_sc (M : List Char) :
    selfCloseSplit ((M ++ [' ']) ++ ['/']) = (true, M ++ [' ']) := by
  unfold selfCloseSplit
  rw [List.getLast?_concat]
  rw [if_pos (by rfl)]
  rw [List.dropLast_concat]

theorem selfCloseSplit_nosc (M : List Char) :
    selfCloseSplit (M ++ [' ']) = (false, M ++ [' ']) := by
  unfold selfCloseSplit
  rw [List.getLast?_concat]
  rw [if_neg (by decide)]

theorem trim_concat_space {B : List Char} (hne : B ≠ [])
    (hh : ∀ c, B.head? = some c → isWs c = false)
    (hl : ∀ c, B.getLast? = some c → isWs c = false) :
    trim (B ++ [' ']) = B := by
  cases B with
  | nil => exact absurd rfl hne
  | cons c t =>
    have hc : isWs c = false := hh c rfl
    unfold trim trimL trimR
    rw [show (c :: t) ++ [' '] = c :: (t ++ [' ']) from rfl]
    rw [List.dropWhile_cons, hc]
    simp only [Bool.false_eq_true, if_false]
    rw [show c :: (t ++ [' ']) = (c :: t) ++ [' '] from rfl]
    rw [List.rdropWhile_concat_pos isWs (c :: t) ' ' (by rfl)]
    rw [List.rdropWhile_eq_self_iff]
    intro hx
    have := hl ((c :: t).getLast hx) (List.getLast?_eq_getLast _ hx)
    rw [this]
    simp

theorem closeSplit_slash (t : List Char) : closeSplit ('/' :: t) = (true, trim t) := rfl

theorem closeSplit_noslash {c : Char} (t : List Char) (hc : c ≠ '/') :
    closeSplit (c :: t) = (false, c :: t) := by
  rw [closeSplit.eq_2 (c :: t)]
  intro t' h
  injection h with h1 h2
  exact hc h1

theorem wordChar_ne_slash {c : Char} (h : wordChar c = true) : c ≠ '/' := by
  intro hc
  subst hc
  exact absurd h (by decide)

theorem trim_space_wrap {B : List Char} (hne : B ≠ [])
    (hh : ∀ c, B.head? = some c → isWs c = false)
    (hl : ∀ c, B.getLast? = some c → isWs c = false) :
    trim (' ' :: (B ++ [' '])) = B := by
  unfold trim trimL
  rw [List.dropWhile_cons]
  rw [show isWs ' ' = true from rfl]
  simp only [if_true]
  cases B with
  | nil => exact absurd rfl hne
  | cons c t =>
    have hc : isWs c = false := hh c rfl
    rw [show (c :: t) ++ [' '] = c :: (t ++ [' ']) from rfl]
    rw [List.dropWhile_cons, hc]
    simp only [Bool.false_eq_true, if_false]
    show trimR (c :: (t ++ [' '])) = c :: t
    unfold trimR
    rw [show c :: (t ++ [' ']) = (c :: t) ++ [' '] from rfl]
    rw [List.rdropWhile_concat_pos isWs (c :: t) ' ' (by rfl)]
    rw [List.rdropWhile_eq_self_iff]
    intro hx
    have := hl ((c :: t).getLast hx) (List.getLast?_eq_getLast _ hx)
    rw [this]
    simp

theorem fromString_toHugo (s : Shortcode) (hwf : Shortcode.Wf s)
    (hro : ∀ p ∈ s.params, RenderOk p.value) :
    Shortcode.fromString s.toHugo = .ok s := by
  obtain ⟨nm, ps, isP, isCl, isSC⟩ := s
  unfold Shortcode.Wf at hwf
  obtain ⟨hname, hboth, hmix, hclp, hpwf⟩ := hwf
  dsimp only at hro hname hboth hmix hclp hpwf
  obtain ⟨hnmne, hnmbare, hnmword⟩ := validSCName_facts hname
  have hT : Shortcode.toHugo ⟨nm, ps, isP, isCl, isSC⟩
      = (if isP then percentOpen else angleOpen)
        ++ ((' ' :: ((if isCl then ['/'] else []) ++ nm)
              ++ (ps.map fun p => ' ' :: p.toHugo).flatten
              ++ (if isSC then [' ', '/'] else [' ']))
            ++ (if isP then percentClose else angleClose)) := by
    show ((if isP then percentOpen else angleOpen)
        ++ ' ' :: ((if isCl then ['/'] else []) ++ nm)
        ++ (ps.map fun p => ' ' :: p.toHugo).flatten
        ++ (if isSC then [' ', '/'] else [' ']))
        ++ (if isP then percentClose else angleClose) = _
    simp [List.append_assoc]
  have hdelim : delimKind (Shortcode.toHugo ⟨nm, ps, isP, isCl, isSC⟩) = some isP := by
    rw [hT]
    cases isP with
    | true => exact delimKind_append_percent _
    | false => exact delimKind_append_angle _
  have hraw : rawInterior (Shortcode.toHugo ⟨nm, ps, isP, isCl, isSC⟩)
      = ' ' :: ((if isCl then ['/'] else []) ++ nm)
          ++ (ps.map fun p => ' ' :: p.toHugo).flatten
          ++ (if isSC then [' ', '/'] else [' ']) := by
    rw [hT]
    exact rawInterior_of _ _ _ (by cases isP <;> rfl) (by cases isP <;> rfl)
  have hAB : ' ' :: ((if isCl then ['/'] else []) ++ nm)
        ++ (ps.map fun p => ' ' :: p.toHugo).flatten
      = ' ' :: (((if isCl then ['/'] else []) ++ nm)
          ++ (ps.map fun p => ' ' :: p.toHugo).flatten) := by
    simp
  have hsc2 : selfCloseSplit (' ' :: ((if isCl then ['/'] else []) ++ nm)
        ++ (ps.map fun p => ' ' :: p.toHugo).flatten
        ++ (if isSC then [' ', '/'] else [' ']))
      = (isSC, ' ' :: ((((if isCl then ['/'] else []) ++ nm)
          ++ (ps.map fun p => ' ' :: p.toHugo).flatten) ++ [' '])) := by
    cases isSC with
    | true =>
      rw [show (if (true : Bool) = true then [' ', '/'] else [' ']) = [' ', '/'] from rfl]
      rw [show ' ' :: ((if isCl then ['/'] else []) ++ nm)
            ++ (ps.map fun p => ' ' :: p.toHugo).flatten ++ [' ', '/']
          = ((' ' :: ((((if isCl then ['/'] else []) ++ nm)
              ++ (ps.map fun p => ' ' :: p.toHugo).flatten)) ++ [' ']) ++ ['/']) from by
          simp]
      rw [selfCloseSplit_sc]
      simp
    | false =>
      rw [show (if (false : Bool) = true then [' ', '/'] else [' ']) = [' '] from rfl]
      rw [show ' ' :: ((if isCl then ['/'] else []) ++ nm)
            ++ (ps.map fun p => ' ' :: p.toHugo).flatten ++ [' ']
          = ((' ' :: ((((if isCl then ['/'] else []) ++ nm)
              ++ (ps.map fun p => ' ' :: p.toHugo).flatten)) ++ [' '])) from by
          simp]
      rw [selfCloseSplit_nosc]
      simp
  have hBne : ((if isCl then ['/'] else []) ++ nm)
      ++ (ps.map fun p => ' ' :: p.toHugo).flatten ≠ [] := by
    intro hx
    exact hnmne (List.append_eq_nil.mp (List.append_eq_nil.mp hx).1).2
  have hBh : ∀ c, (((if isCl then ['/'] else []) ++ nm)
      ++ (ps.map fun p => ' ' :: p.toHugo).flatten).head? = some c → isWs c = false := by
    intro c hc
    cases isCl with
    | true =>
      rw [show (if (true : Bool) = true then ['/'] else ([] : List Char)) = ['/'] from rfl] at hc
      rw [show ((['/'] ++ nm) ++ (ps.map fun p => ' ' :: p.toHugo).flatten)
            = '/' :: (nm ++ (ps.map fun p => ' ' :: p.toHugo).flatten) from by simp] at hc
      simp only [List.head?_cons, Option.some.injEq] at hc
      subst hc
      rfl
    | false =>
      rw [show (if (false : Bool) = true then ['/'] else ([] : List Char)) = [] from rfl] at hc
      cases hnm : nm with
      | nil => exact absurd hnm hnmne
      | cons a t =>
        rw [hnm] at hc
        rw [show (([] ++ (a :: t)) ++ (ps.map fun p => ' ' :: p.toHugo).flatten)
              = a :: (t ++ (ps.map fun p => ' ' :: p.toHugo).flatten) from by simp] at hc
        simp only [List.head?_cons, Option.some.injEq] at hc
        subst hc
        rw [List.all_eq_true] at hnmword
        exact wordChar_not_ws (hnmword a (by rw [hnm]; simp))
  have hBl : ∀ c, (((if isCl then ['/'] else []) ++ nm)
      ++ (ps.map fun p => ' ' :: p.toHugo).flatten).getLast? = some c → isWs c = false := by
    intro c hc
    cases hps : ps with
    | nil =>
      rw [hps] at hc
      simp only [List.map_nil, List.flatten_nil, List.append_nil] at hc
      rw [List.getLast?_append_of_ne_nil _ hnmne] at hc
      rw [List.all_eq_true] at hnmword
      exact wordChar_not_ws
        (hnmword c (List.mem_of_mem_getLast? (Option.mem_def.mpr hc)))
    | cons q qs =>
      obtain ⟨x, hx⟩ := paramsR_concat ps (by rw [hps]; simp)
      rw [hx] at hc
      rw [show (((if isCl then ['/'] else []) ++ nm) ++ (x ++ ['"']))
            = ((((if isCl then ['/'] else []) ++ nm) ++ x) ++ ['"']) from by simp] at hc
      rw [List.getLast?_concat] at hc
      simp only [Option.some.injEq] at hc
      subst hc
      rfl
  have htrim : trim (' ' :: ((((if isCl then ['/'] else []) ++ nm)
        ++ (ps.map fun p => ' ' :: p.toHugo).flatten) ++ [' ']))
      = ((if isCl then ['/'] else []) ++ nm)
        ++ (ps.map fun p => ' ' :: p.toHugo).flatten :=
    trim_space_wrap hBne hBh hBl
  have hclB : closeSplit (((if isCl then ['/'] else []) ++ nm)
        ++ (ps.map fun p => ' ' :: p.toHugo).flatten)
      = (isCl, nm ++ (ps.map fun p => ' ' :: p.toHugo).flatten) := by
    cases isCl with
    | true =>
      have hps : ps = [] := hclp rfl
      subst hps
      rw [show (if (true : Bool) = true then ['/'] else ([] : List Char)) = ['/'] from rfl]
      simp only [List.map_nil, List.flatten_nil, List.append_nil]
      rw [show (['/'] ++ nm) = '/' :: nm from rfl]
      rw [closeSplit_slash]
      rw [trim_of_wordlike hname]
    | false =>
      rw [show (if (false : Bool) = true then ['/'] else ([] : List Char)) = [] from rfl]
      cases hnm : nm with
      | nil => exact absurd hnm hnmne
      | cons a t =>
        rw [show (([] ++ (a :: t)) ++ (ps.map fun p => ' ' :: p.toHugo).flatten)
              = a :: (t ++ (ps.map fun p => ' ' :: p.toHugo).flatten) from by simp]
        have haw : wordChar a = true := by
          rw [List.all_eq_true] at hnmword
          exact hnmword a (by rw [hnm]; simp)
        rw [closeSplit_noslash _ (wordChar_ne_slash haw)]
        simp
  have hparams : ∀ p ∈ ps, (∀ n, p.name = some n → validName n = true) ∧
      qsc false (escapeQ p.value) = some false := by
    intro p hp
    exact ⟨(hpwf p hp).1, (hro p hp).1⟩
  have htok : tokenize (nm ++ (ps.map fun p => ' ' :: p.toHugo).flatten)
      = .ok ([Seg.bare nm] :: ps.map tokOf) :=
    tokenize_render nm ⟨hnmne, hnmbare⟩ ps hparams
  have hmapo : mapParams (ps.map tokOf) = .ok ps := by
    apply mapParams_tokOf
    intro p hp
    exact ⟨(hpwf p hp).1, hro p hp⟩
  have hcond : (isSC && isCl) = false := by
    cases isCl with
    | false => simp
    | true =>
      cases isSC with
      | false => simp
      | true => exact absurd ⟨rfl, rfl⟩ hboth
  have hclpcond : (isCl && !ps.isEmpty) = false := by
    cases isCl with
    | false => simp
    | true =>
      have hps : ps = [] := hclp rfl
      subst hps
      simp
  unfold Shortcode.fromString
  rw [hdelim]
  simp only [hraw, hsc2, htrim, hclB, htok, hname, hmapo, hmix, Bool.false_eq_true, if_false,
    if_true, Bool.and_self]
  rw [show (isSC && isCl) = false from hcond]
  simp only [Bool.false_eq_true, if_false]
  rw [show (isCl && !ps.isEmpty) = false from hclpcond]
  simp only [Bool.false_eq_true, if_false]

/-! ## Invariants of parsed shortcodes -/

theorem qsc_append_one (x : List Char) (c : Char) : ∀ p, qsc p (x ++ [c])
    = match qsc p x with
      | none => none
      | some true => some false
      | some false => if c = '"' then none else if c = '\\' then some true else some false := by
  induction x with
  | nil =>
    intro p
    cases p with
    | true => rfl
    | false =>
      by_cases hq : c = '"'
      · subst hq; rfl
      · by_cases hb : c = '\\'
        · subst hb; rfl
        · rw [show ([] : List Char) ++ [c] = [c] from rfl]
          rw [qsc.eq_5 c [] (fun x => hq x) (fun x => hb x)]
          rw [show qsc false ([] : List Char) = some false from rfl]
          rw [if_neg hq, if_neg hb]
  | cons a x' ih =>
    intro p
    cases p with
    | true =>
      rw [show (a :: x') ++ [c] = a :: (x' ++ [c]) from rfl]
      rw [show qsc true (a :: (x' ++ [c])) = qsc false (x' ++ [c]) from rfl]
      rw [show qsc true (a :: x') = qsc false x' from rfl]
      exact ih false
    | false =>
      by_cases hq : a = '"'
      · subst hq
        rfl
      · by_cases hb : a = '\\'
        · subst hb
          rw [show ('\\' :: x') ++ [c] = '\\' :: (x' ++ [c]) from rfl]
          rw [show qsc false ('\\' :: (x' ++ [c])) = qsc true (x' ++ [c]) from rfl]
          rw [show qsc false ('\\' :: x') = qsc true x' from rfl]
          exact ih true
        · rw [show (a :: x') ++ [c] = a :: (x' ++ [c]) from rfl]
          rw [qsc.eq_5 a (x' ++ [c]) (fun x => hq x) (fun x => hb x)]
          rw [qsc.eq_5 a x' (fun x => hq x) (fun x => hb x)]
          exact ih false

theorem flushBare_wf {cb : List Char} {segs : List Seg} (hcb : cb.all bareOk = true)
    (hsegs : ∀ sg ∈ segs, SegWf sg) : ∀ sg ∈ flushBare cb segs, SegWf sg := by
  unfold flushBare
  by_cases hx : cb.isEmpty
  · rw [if_pos hx]
    exact hsegs
  · rw [if_neg hx]
    intro sg hsg
    rcases List.mem_cons.mp hsg with hs | hs
    · subst hs
      show cb.reverse ≠ [] ∧ cb.reverse.all bareOk = true
      constructor
      · simp only [ne_eq, List.reverse_eq_nil_iff]
        intro hnil
        rw [hnil] at hx
        exact hx rfl
      · rw [List.all_reverse]
        exact hcb
    · exact hsegs sg hs

theorem flushTok_wf {cb : List Char} {segs : List Seg} {toks : List Token}
    (hcb : cb.all bareOk = true) (hsegs : ∀ sg ∈ segs, SegWf sg)
    (htoks : ∀ t ∈ toks, TokenWf t) : ∀ t ∈ flushTok cb segs toks, TokenWf t := by
  unfold flushTok
  cases hx : flushBare cb segs with
  | nil => exact htoks
  | cons s ss =>
    intro t ht
    rcases List.mem_cons.mp ht with hs | hs
    · subst hs
      intro sg hsg
      rw [List.mem_reverse] at hsg
      exact flushBare_wf hcb hsegs sg (by rw [hx]; exact hsg)
    · exact htoks t hs

theorem tokRun_wf : ∀ (cs : List Char) (inQ aB : Bool) (qa cb : List Char)
    (segs : List Seg) (toks : List Token) (out : List Token),
    tokRun cs inQ aB qa cb segs toks = .ok out →
    (inQ = true → qsc false qa.reverse = some aB) →
    cb.all bareOk = true →
    (∀ sg ∈ segs, SegWf sg) →
    (∀ t ∈ toks, TokenWf t) →
    ∀ t ∈ out, TokenWf t := by
  intro cs
  induction cs with
  | nil =>
    intro inQ aB qa cb segs toks out h hqa hcb hsegs htoks
    cases inQ with
    | true => cases h
    | false =>
      have hout : out = (flushTok cb segs toks).reverse := by
        have : tokRun [] false aB qa cb segs toks
            = .ok (flushTok cb segs toks).reverse := rfl
        rw [this] at h
        injection h with h'
        exact h'.symm
      subst hout
      intro t ht
      rw [List.mem_reverse] at ht
      exact flushTok_wf hcb hsegs htoks t ht
  | cons c r ih =>
    intro inQ aB qa cb segs toks out h hqa hcb hsegs htoks
    cases inQ with
    | true =>
      cases aB with
      | true =>
        have h' : tokRun r true false (c :: qa) cb segs toks = .ok out := h
        apply ih true false (c :: qa) cb segs toks out h' ?_ hcb hsegs htoks
        intro _
        rw [show (c :: qa).reverse = qa.reverse ++ [c] from by simp]
        rw [qsc_append_one qa.reverse c false, hqa rfl]
      | false =>
        by_cases hq : c = '"'
        · subst hq
          have h' : tokRun r false false [] [] (Seg.quoted qa.reverse :: segs) toks
              = .ok out := by
            rw [show tokRun ('"' :: r) true false qa cb segs toks
                = tokRun r false false [] [] (Seg.quoted qa.reverse :: segs) toks from by
              show (if ('"' : Char) = '"' then
                      tokRun r false false [] [] (Seg.quoted qa.reverse :: segs) toks
                    else if ('"' : Char) = '\\' then
                      tokRun r true true ('\\' :: qa) cb segs toks
                    else tokRun r true false ('"' :: qa) cb segs toks)
                  = tokRun r false false [] [] (Seg.quoted qa.reverse :: segs) toks
              rw [if_pos rfl]] at h
            exact h
          apply ih false false [] [] (Seg.quoted qa.reverse :: segs) toks out h'
            (fun hx => by cases hx) rfl ?_ htoks
          intro sg hsg
          rcases List.mem_cons.mp hsg with hs | hs
          · subst hs
            exact hqa rfl
          · exact hsegs sg hs
        · by_cases hb : c = '\\'
          · subst hb
            have h' : tokRun r true true ('\\' :: qa) cb segs toks = .ok out := by
              rw [show tokRun ('\\' :: r) true false qa cb segs toks
                  = tokRun r true true ('\\' :: qa) cb segs toks from by
                show (if ('\\' : Char) = '"' then
                        tokRun r false false [] [] (Seg.quoted qa.reverse :: segs) toks
                      else if ('\\' : Char) = '\\' then
                        tokRun r true true ('\\' :: qa) cb segs toks
                      else tokRun r true false ('\\' :: qa) cb segs toks)
                    = tokRun r true true ('\\' :: qa) cb segs toks
                rw [if_neg (by decide), if_pos rfl]] at h
              exact h
            apply ih true true ('\\' :: qa) cb segs toks out h' ?_ hcb hsegs htoks
            intro _
            rw [show ('\\' :: qa).reverse = qa.reverse ++ ['\\'] from by simp]
            rw [qsc_append_one qa.reverse '\\' false, hqa rfl]
            rfl
          · have h' : tokRun r true false (c :: qa) cb segs toks = .ok out := by
              rw [show tokRun (c :: r) true false qa cb segs toks
                  = tokRun r true false (c :: qa) cb segs toks from by
                show (if c = '"' then
                        tokRun r false false [] [] (Seg.quoted qa.reverse :: segs) toks
                      else if c = '\\' then
                        tokRun r true true ('\\' :: qa) cb segs toks
                      else tokRun r true false (c :: qa) cb segs toks)
                    = tokRun r true false (c :: qa) cb segs toks
                rw [if_neg hq, if_neg hb]] at h
              exact h
            apply ih true false (c :: qa) cb segs toks out h' ?_ hcb hsegs htoks
            intro _
            rw [show (c :: qa).reverse = qa.reverse ++ [c] from by simp]
            rw [qsc_append_one qa.reverse c false, hqa rfl]
            rw [if_neg hq, if_neg hb]
    | false =>
      by_cases hw : isWs c = true
      · have h' : tokRun r false false [] [] [] (flushTok cb segs toks) = .ok out := by
          rw [tokRun_ws_step c hw r aB qa cb segs toks] at h
          exact h
        exact ih false false [] [] [] (flushTok cb segs toks) out h'
          (fun hx => by cases hx) rfl (fun sg hsg => by cases hsg)
          (flushTok_wf hcb hsegs htoks)
      · have hw' : isWs c = false := by
          cases hx : isWs c with
          | false => rfl
          | true => exact absurd hx hw
        by_cases hq : c = '"'
        · subst hq
          have h' : tokRun r true false [] [] (flushBare cb segs) toks = .ok out := by
            rw [show tokRun ('"' :: r) false aB qa cb segs toks
                = tokRun r true false [] [] (flushBare cb segs) toks from by
              show (if isWs '"' then tokRun r false false [] [] [] (flushTok cb segs toks)
                    else if ('"' : Char) = '"' then
                      tokRun r true false [] [] (flushBare cb segs) toks
                    else tokRun r false false qa ('"' :: cb) segs toks)
                  = tokRun r true false [] [] (flushBare cb segs) toks
              rw [show isWs '"' = false from rfl]
              simp] at h
            exact h
          exact ih true false [] [] (flushBare cb segs) toks out h'
            (fun _ => rfl) rfl (flushBare_wf hcb hsegs) htoks
        · have h' : tokRun r false false qa (c :: cb) segs toks = .ok out := by
            rw [show tokRun (c :: r) false aB qa cb segs toks
                = tokRun r false false qa (c :: cb) segs toks from by
              show (if isWs c then tokRun r false false [] [] [] (flushTok cb segs toks)
                    else if c = '"' then
                      tokRun r true false [] [] (flushBare cb segs) toks
                    else tokRun r false false qa (c :: cb) segs toks)
                  = tokRun r false false qa (c :: cb) segs toks
              rw [hw']
              simp only [Bool.false_eq_true, if_false]
              rw [if_neg hq]] at h
            exact h
          apply ih false false qa (c :: cb) segs toks out h'
            (fun hx => by cases hx) ?_ hsegs htoks
          rw [List.all_cons, Bool.and_eq_true]
          refine ⟨?_, hcb⟩
          unfold bareOk
          rw [hw']
          rw [Bool.and_eq_true]
          exact ⟨rfl, by simpa using hq⟩

theorem splitAtEq_some_eq : ∀ {b n v : List Char}, splitAtEq b = some (n, v) →
    b = n ++ '=' :: v := by
  intro b
  induction b with
  | nil => intro n v h; simp [splitAtEq] at h
  | cons c r ih =>
    intro n v h
    unfold splitAtEq at h
    by_cases hc : c = '='
    · rw [if_pos hc] at h
      simp only [Option.some.injEq, Prod.mk.injEq] at h
      obtain ⟨h1, h2⟩ := h
      subst h1
      subst h2
      rw [hc]
      rfl
    · rw [if_neg hc] at h
      cases hsp : splitAtEq r with
      | none => rw [hsp] at h; simp at h
      | some p =>
        obtain ⟨p1, p2⟩ := p
        rw [hsp] at h
        simp only [Option.map_some', Option.some.injEq, Prod.mk.injEq] at h
        obtain ⟨h1, h2⟩ := h
        subst h1
        subst h2
        rw [ih hsp]
        rfl

theorem paramOfToken_wf : ∀ {t : Token}, TokenWf t → ∀ {p : ShortcodeParam},
    paramOfToken t = .ok p → ParamWf p := by
  intro t ht p h
  match t, h with
  | [Seg.bare b], h =>
    have hb : SegWf (Seg.bare b) := ht _ (by simp)
    obtain ⟨hbne, hball⟩ := hb
    rw [show paramOfToken [Seg.bare b]
        = (match splitAtEq b with
           | some (n, v) => if validName n then .ok ⟨v, some n⟩ else .ok ⟨b, none⟩
           | none => .ok ⟨b, none⟩) from rfl] at h
    split at h
    · rename_i n v hsp
      split at h
      · rename_i hvn
        injection h with h'
        subst h'
        refine ⟨fun n' hn' => ?_, .inl ?_⟩
        · injection hn' with hx
          rw [← hx]
          exact hvn
        · have hbv := splitAtEq_some_eq hsp
          rw [List.all_eq_true] at hball ⊢
          intro c hc
          exact hball c (by rw [hbv]; simp [hc])
      · injection h with h'
        subst h'
        exact ⟨fun n' hn' => Option.noConfusion hn', .inl hball⟩
    · injection h with h'
      subst h'
      exact ⟨fun n' hn' => Option.noConfusion hn', .inl hball⟩
  | [Seg.quoted q], h =>
    have hq : SegWf (Seg.quoted q) := ht _ (by simp)
    rw [show paramOfToken [Seg.quoted q] = .ok ⟨valueOfQuoted q, none⟩ from rfl] at h
    injection h with h'
    subst h'
    exact ⟨fun n hn => Option.noConfusion hn, .inr ⟨q, hq, rfl⟩⟩
  | [Seg.bare b, Seg.quoted q], h =>
    have hq : SegWf (Seg.quoted q) := ht _ (by simp)
    rw [show paramOfToken [Seg.bare b, Seg.quoted q]
        = if (b.getLast? == some '=' && validName b.dropLast) = true then
            Except.ok (⟨valueOfQuoted q, some b.dropLast⟩ : ShortcodeParam)
          else Except.error FmtErr.badParam from rfl] at h
    by_cases hg : (b.getLast? == some '=' && validName b.dropLast) = true
    · rw [if_pos hg] at h
      injection h with h'
      subst h'
      rw [Bool.and_eq_true] at hg
      refine ⟨fun n hn => ?_, .inr ⟨q, hq, rfl⟩⟩
      injection hn with hx
      rw [← hx]
      exact hg.2
    · rw [if_neg hg] at h
      cases h

theorem mapParams_wf : ∀ {ts : List Token}, (∀ t ∈ ts, TokenWf t) →
    ∀ {ps : List ShortcodeParam}, mapParams ts = .ok ps → ∀ p ∈ ps, ParamWf p := by
  intro ts
  induction ts with
  | nil =>
    intro _ ps h
    rw [show mapParams [] = .ok [] from rfl] at h
    injection h with h'
    subst h'
    intro p hp
    cases hp
  | cons t ts' ih =>
    intro hts ps h
    rw [show mapParams (t :: ts')
        = (do
            let p ← paramOfToken t
            let ps ← mapParams ts'
            Except.ok (p :: ps)) from rfl] at h
    cases hp1 : paramOfToken t with
    | error e => rw [hp1] at h; cases h
    | ok p1 =>
      rw [hp1] at h
      cases hp2 : mapParams ts' with
      | error e =>
        rw [hp2] at h
        cases h
      | ok ps' =>
        rw [hp2] at h
        have hps : ps = p1 :: ps' := by
          have h2 : (Except.ok (p1 :: ps') : Except FmtErr (List ShortcodeParam)) = Except.ok ps := h
          injection h2 with h'
          exact h'.symm
        subst hps
        intro p hp
        rcases List.mem_cons.mp hp with hx | hx
        · subst hx
          exact paramOfToken_wf (hts t (by simp)) hp1
        · exact ih (fun x hxx => hts x (by simp [hxx])) hp2 p hx


theorem tokenize_wf {l : List Char} {toks : List Token} (h : tokenize l = .ok toks) :
    ∀ t ∈ toks, TokenWf t :=
  tokRun_wf l false false [] [] [] [] toks h (fun hq => Bool.noConfusion hq) rfl
    (fun _ hsg => absurd hsg (List.not_mem_nil _)) (fun _ ht => absurd ht (List.not_mem_nil _))

theorem fromString_wf : ∀ {text : List Char} {s : Shortcode},
    Shortcode.fromString text = .ok s → Shortcode.Wf s := by
  intro text s h
  unfold Shortcode.fromString at h
  split at h
  all_goals try exact Except.noConfusion h
  split at h
  all_goals try exact Except.noConfusion h
  rename_i hboth
  split at h
  all_goals try exact Except.noConfusion h
  rename_i t0 rest htk
  split at h
  all_goals try exact Except.noConfusion h
  rename_i n
  split at h
  all_goals try exact Except.noConfusion h
  rename_i hvn
  split at h
  all_goals try exact Except.noConfusion h
  rename_i ps hmp
  split at h
  all_goals try exact Except.noConfusion h
  rename_i hmix
  split at h
  all_goals try exact Except.noConfusion h
  rename_i hcp
  injection h with h'
  subst h'
  have htwf := tokenize_wf htk
  refine ⟨hvn, ?_, ?_, ?_, ?_⟩
  · intro hcs
    exact hboth (by rw [Bool.and_eq_true]; exact ⟨hcs.2, hcs.1⟩)
  · exact Bool.eq_false_iff.mpr hmix
  · intro hcl
    have hcl2 : (closeSplit (trim (selfCloseSplit (rawInterior text)).2)).1 = true := hcl
    cases hps : ps with
    | nil => rfl
    | cons p pr =>
      exfalso
      apply hcp
      rw [hcl2, hps]
      rfl
  · intro p hp
    exact mapParams_wf (fun t htm => htwf t (List.mem_cons_of_mem _ htm)) hmp p hp

/-- C1: as stated, the round-trip fails.  The directive `\x7b\x7b< x a\ >\x7d\x7d`
parses to a shortcode whose positional value ends in a backslash; serializing it
puts that backslash right before the closing quote, so the escaped-quote scan of
the re-parse swallows the quote and fails with unbalanced quotes. -/
theorem claim_C1_counterexample :
    Shortcode.fromString "\x7b\x7b< x a\\ >\x7d\x7d".toList
        = .ok ⟨"x".toList, [⟨"a\\".toList, none⟩], false, false, false⟩ ∧
    Shortcode.fromString
        (Shortcode.toHugo ⟨"x".toList, [⟨"a\\".toList, none⟩], false, false, false⟩)
        ≠ .ok ⟨"x".toList, [⟨"a\\".toList, none⟩], false, false, false⟩ := by
  constructor
  · decide
  · decide

/-- C1 (amended): for every shortcode `s` obtained by `Shortcode.fromString`
from some directive text, if no parameter value of `s` ends in a literal
backslash then serializing with `Shortcode.toHugo` and re-parsing yields `s`
again — the same name, parameters (names and unescaped values, in order) and
delimiter/closing/self-closing flags. -/
theorem claim_C1 (text : List Char) (s : Shortcode)
    (h : Shortcode.fromString text = .ok s)
    (hbs : ∀ p ∈ s.params, p.value.getLast? ≠ some '\\') :
    Shortcode.fromString s.toHugo = .ok s := by
  have hwf := fromString_wf h
  exact fromString_toHugo s hwf
    (fun p hp => value_renderOk p.value (hwf.2.2.2.2 p hp).2 (hbs p hp))

/-- Witness for C1 (amended): a concrete parse whose value ends in no
backslash, with the hypotheses discharged by evaluation. -/
theorem claim_C1_witness :
    Shortcode.fromString "\x7b\x7b< x y >\x7d\x7d".toList
        = .ok ⟨"x".toList, [⟨"y".toList, none⟩], false, false, false⟩ ∧
    Shortcode.fromString
        (Shortcode.toHugo ⟨"x".toList, [⟨"y".toList, none⟩], false, false, false⟩)
        = .ok ⟨"x".toList, [⟨"y".toList, none⟩], false, false, false⟩ :=
  ⟨by decide, claim_C1 "\x7b\x7b< x y >\x7d\x7d".toList _ (by decide) (by decide)⟩

theorem bodyScan_inQuote : ∀ (q : List Char) (isP aB : Bool) (rest : List Char),
    qsc aB q = some false →
    bodyScan isP (q ++ '"' :: rest) true aB = bodyScan isP rest false false := by
  intro q
  induction q with
  | nil =>
    intro isP aB rest h
    rw [qsc.eq_1] at h
    injection h with h'
    subst h'
    rw [List.nil_append, bodyScan.eq_5, if_pos rfl]
  | cons c q' ih =>
    intro isP aB rest h
    cases aB with
    | true =>
      rw [show qsc true (c :: q') = qsc false q' from rfl] at h
      rw [List.cons_append, bodyScan.eq_4]
      exact ih isP false rest h
    | false =>
      by_cases hq : c = '"'
      · subst hq
        rw [show qsc false ('"' :: q') = none from rfl] at h
        cases h
      · by_cases hb : c = '\\'
        · subst hb
          rw [show qsc false ('\\' :: q') = qsc true q' from rfl] at h
          rw [List.cons_append, bodyScan.eq_5, if_neg (by decide), if_pos rfl]
          exact ih isP true rest h
        · rw [qsc.eq_5 c q' (fun x => hq x) (fun x => hb x)] at h
          rw [List.cons_append, bodyScan.eq_5, if_neg hq, if_neg hb]
          exact ih isP false rest h

/-- C2: quoted parameter spans are opaque to the scanner.  In general, once a
quoted span opens, `bodyScan` consumes its cleanly-scanning content — whatever
delimiter-like substrings it holds — and resumes after the closing quote, as if
the span were not there.  In particular the pinned documents with `%\x7d\x7d`
and `\x7b\x7b%` inside quotes match up to the first closer outside quotes, and
a span whose quoted content carries an odd count of escaped quotes is still
matched in full. -/
theorem claim_C2 :
    (∀ (isP : Bool) (q rest : List Char), qsc false q = some false →
        bodyScan isP ('"' :: (q ++ '"' :: rest)) false false
          = bodyScan isP rest false false) ∧
    regexMatches "shortcode_name".toList true
        "hello \x7b\x7b% shortcode_name \"false %\x7d\x7d closer\" %\x7d\x7d not fooled".toList
      = ["\x7b\x7b% shortcode_name \"false %\x7d\x7d closer\" %\x7d\x7d".toList] ∧
    regexMatches "shortcode_name".toList true
        "hello \x7b\x7b% shortcode_name \"false \x7b\x7b% opener\" %\x7d\x7d not fooled".toList
      = ["\x7b\x7b% shortcode_name \"false \x7b\x7b% opener\" %\x7d\x7d".toList] ∧
    regexMatches "shortcode".toList false
        "a \x7b\x7b< shortcode \"cat \\\" >\x7d\x7d\" >\x7d\x7d b".toList
      = ["\x7b\x7b< shortcode \"cat \\\" >\x7d\x7d\" >\x7d\x7d".toList] :=
  ⟨fun isP q rest h => bodyScan_inQuote q isP false rest h,
   by decide, by decide, by decide⟩

/-- Witness for C2: the opacity statement applied to the pinned quoted content
`false %\x7d\x7d closer`, whose clean scan is discharged by evaluation. -/
theorem claim_C2_witness :
    qsc false "false %\x7d\x7d closer".toList = some false ∧
    bodyScan true
        ('"' :: ("false %\x7d\x7d closer".toList ++ '"' :: " %\x7d\x7d rest".toList))
        false false
      = bodyScan true " %\x7d\x7d rest".toList false false :=
  ⟨by decide,
   claim_C2.1 true "false %\x7d\x7d closer".toList " %\x7d\x7d rest".toList (by decide)⟩

/-- C6: the self-closing slash must touch the closing marker.  `/>\x7d\x7d` and
`/%\x7d\x7d` parse as self-closing with no parameters; a slash separated from
the closing marker by whitespace is instead one positional parameter `/` with
both closing flags off.  In general the self-closing flag is set exactly when
the raw interior ends in `/`. -/
theorem claim_C6 :
    (∀ raw : List Char, (selfCloseSplit raw).1 = (raw.getLast? == some '/')) ∧
    Shortcode.fromString "\x7b\x7b< some_shortcode />\x7d\x7d".toList
      = .ok ⟨"some_shortcode".toList, [], false, false, true⟩ ∧
    Shortcode.fromString "\x7b\x7b% some_shortcode /%\x7d\x7d".toList
      = .ok ⟨"some_shortcode".toList, [], true, false, true⟩ ∧
    Shortcode.fromString "\x7b\x7b< some_shortcode / >\x7d\x7d".toList
      = .ok ⟨"some_shortcode".toList, [⟨"/".toList, none⟩], false, false, false⟩ := by
  refine ⟨fun raw => ?_, by decide, by decide, by decide⟩
  unfold selfCloseSplit
  by_cases h : (raw.getLast? == some '/') = true
  · rw [if_pos h, h]
  · rw [if_neg h, Bool.eq_false_iff.mpr h]

/-- C7: mixed named and positional parameters are rejected.  If the directive
text has matched delimiters, is not both closing and self-closing, tokenizes to
a valid name followed by parameter tokens of which at least one is named and at
least one positional, then `Shortcode.fromString` fails, and the error message
contains `Cannot mix named and positional`. -/
theorem claim_C7 (text : List Char) (isP : Bool) (rest : List Token)
    (n : List Char) (ps : List ShortcodeParam)
    (hdk : delimKind text = some isP)
    (hboth : ¬((selfCloseSplit (rawInterior text)).1
        && (closeSplit (trim (selfCloseSplit (rawInterior text)).2)).1) = true)
    (htk : tokenize (closeSplit (trim (selfCloseSplit (rawInterior text)).2)).2
        = .ok ([Seg.bare n] :: rest))
    (hvn : validSCName n = true)
    (hmp : mapParams rest = .ok ps)
    (hnamed : (ps.any fun p => p.name.isSome) = true)
    (hpos : (ps.any fun p => p.name.isNone) = true) :
    Shortcode.fromString text = .error .mixedParams ∧
    List.IsInfix "Cannot mix named and positional".toList FmtErr.mixedParams.message := by
  refine ⟨?_, by decide⟩
  unfold Shortcode.fromString
  split
  · rename_i hdk2
    rw [hdk] at hdk2
    cases hdk2
  · rename_i isP2 hdk2
    rw [hdk] at hdk2
    injection hdk2 with hh
    subst hh
    rw [if_neg hboth]
    split
    · rename_i e htk2
      rw [htk] at htk2
      cases htk2
    · rename_i htk2
      rw [htk] at htk2
      cases htk2
    · rename_i t0 rest2 htk2
      rw [htk] at htk2
      injection htk2 with h1
      injection h1 with h1a h1b
      subst h1a
      subst h1b
      split
      · rename_i n2 heqn
        injection heqn with ha
        injection ha with hb
        subst hb
        rw [if_pos hvn]
        split
        · rename_i e hmp2
          rw [hmp] at hmp2
          cases hmp2
        · rename_i ps2 hmp2
          rw [hmp] at hmp2
          injection hmp2 with h3
          subst h3
          have hc : ((ps.any fun p => p.name.isSome)
              && (ps.any fun p => p.name.isNone)) = true := by
            rw [hnamed, hpos]
            rfl
          rw [if_pos hc]
      · rename_i hne
        exact absurd rfl (hne n)

/-- Witness for C7: the pinned directive
`\x7b\x7b< resource uuid123 href_uuid="uuid456" >\x7d\x7d`, whose stage
hypotheses are discharged by evaluation. -/
theorem claim_C7_witness :
    Shortcode.fromString
        "\x7b\x7b< resource uuid123 href_uuid=\"uuid456\" >\x7d\x7d".toList
      = .error .mixedParams ∧
    List.IsInfix "Cannot mix named and positional".toList FmtErr.mixedParams.message :=
  claim_C7 "\x7b\x7b< resource uuid123 href_uuid=\"uuid456\" >\x7d\x7d".toList
    false
    [[Seg.bare "uuid123".toList], [Seg.bare "href_uuid=".toList, Seg.quoted "uuid456".toList]]
    "resource".toList
    [⟨"uuid123".toList, none⟩, ⟨"uuid456".toList, some "href_uuid".toList⟩]
    (by decide) (by decide) (by decide) (by decide) (by decide) (by decide) (by decide)

theorem slashSkip_split (l : List Char) : ∃ sl ws2, (sl = [] ∨ sl = ['/']) ∧
    (∀ c ∈ ws2, isWs c = true) ∧ l = sl ++ ws2 ++ slashSkip l := by
  cases l with
  | nil => exact ⟨[], [], .inl rfl, by simp, rfl⟩
  | cons c t =>
    by_cases hc : c = '/'
    · subst hc
      refine ⟨['/'], t.takeWhile isWs, .inr rfl, fun c hc => List.mem_takeWhile_imp hc, ?_⟩
      show ('/' :: t : List Char) = ['/'] ++ t.takeWhile isWs ++ List.dropWhile isWs t
      simp [List.takeWhile_append_dropWhile]
    · refine ⟨[], [], .inl rfl, by simp, ?_⟩
      rw [slashSkip.eq_2 (c :: t) (fun t1 hx => hc (List.cons.injEq .. ▸ hx).1)]
      simp

theorem boundaryOkAt_head {l : List Char} (h : boundaryOkAt l = true) :
    ∀ c, l.head? = some c → wordChar c = false := by
  intro c hc
  unfold boundaryOkAt at h
  rw [hc] at h
  have h2 : (!wordChar c) = true := h
  cases hw : wordChar c
  · rfl
  · rw [hw] at h2
    cases h2

theorem bodyScan_suffix (isP : Bool) : ∀ (l : List Char) (q b : Bool),
    ∀ r, bodyScan isP l q b = some r → r <:+ l := by
  intro l q b
  induction l, q, b using bodyScan.induct isP with
  | case1 r2 x hP =>
    intro r h
    rw [bodyScan.eq_1, if_pos hP] at h
    injection h with h2
    subst h2
    exact ⟨['%', '}', '}'], rfl⟩
  | case2 r2 x hnP ih =>
    intro r h
    rw [bodyScan.eq_1, if_neg hnP] at h
    exact (ih r h).trans ⟨['%'], rfl⟩
  | case3 r2 x hP ih =>
    intro r h
    rw [bodyScan.eq_2, if_pos hP] at h
    exact (ih r h).trans ⟨['>'], rfl⟩
  | case4 r2 x hnP =>
    intro r h
    rw [bodyScan.eq_2, if_neg hnP] at h
    injection h with h2
    subst h2
    exact ⟨['>', '}', '}'], rfl⟩
  | case5 r2 x h1 h2 ih =>
    intro r h
    rw [bodyScan.eq_3 isP x '"' r2 h1 h2, if_pos rfl] at h
    exact (ih r h).trans ⟨['"'], rfl⟩
  | case6 c r2 x h1 h2 hq ih =>
    intro r h
    rw [bodyScan.eq_3 isP x c r2 h1 h2, if_neg hq] at h
    exact (ih r h).trans ⟨[c], rfl⟩
  | case7 c r2 ih =>
    intro r h
    rw [bodyScan.eq_4] at h
    exact (ih r h).trans ⟨[c], rfl⟩
  | case8 r2 ih =>
    intro r h
    rw [bodyScan.eq_5, if_pos rfl] at h
    exact (ih r h).trans ⟨['"'], rfl⟩
  | case9 r2 hne ih =>
    intro r h
    rw [bodyScan.eq_5, if_neg hne, if_pos rfl] at h
    exact (ih r h).trans ⟨['\\'], rfl⟩
  | case10 c r2 hq hb ih =>
    intro r h
    rw [bodyScan.eq_5, if_neg hq, if_neg hb] at h
    exact (ih r h).trans ⟨[c], rfl⟩
  | case11 x y =>
    intro r h
    rw [bodyScan.eq_6] at h
    cases h

theorem matchAt_spec : ∀ {name : List Char} {isP : Bool} {cs span rest : List Char},
    matchAt name isP cs = some (span, rest) →
    cs = span ++ rest ∧ 3 + rest.length ≤ cs.length ∧
    ∃ ws1 sl ws2 tail,
      span = (if isP then percentOpen else angleOpen) ++ ws1 ++ sl ++ ws2 ++ name ++ tail ∧
      (∀ c ∈ ws1, isWs c = true) ∧ (sl = [] ∨ sl = ['/']) ∧
      (∀ c ∈ ws2, isWs c = true) ∧
      (∀ c, tail.head? = some c → wordChar c = false) := by
  intro name isP cs span rest h
  simp only [matchAt] at h
  by_cases h1 : (if isP then percentOpen else angleOpen).isPrefixOf cs = true
  case neg => rw [if_neg h1] at h; cases h
  rw [if_pos h1] at h
  by_cases h2 : name.isPrefixOf (slashSkip ((cs.drop 3).dropWhile isWs)) = true
  case neg => rw [if_neg h2] at h; cases h
  rw [if_pos h2] at h
  by_cases h3 : boundaryOkAt ((slashSkip ((cs.drop 3).dropWhile isWs)).drop name.length) = true
  case neg => rw [if_neg h3] at h; cases h
  rw [if_pos h3] at h
  cases hbody : bodyScan isP ((slashSkip ((cs.drop 3).dropWhile isWs)).drop name.length)
      false false with
  | none => rw [hbody] at h; cases h
  | some r2 =>
    rw [hbody] at h
    have h4 : some (cs.take (cs.length - r2.length), r2) = some (span, rest) := h
    injection h4 with h5
    rw [Prod.mk.injEq] at h5
    obtain ⟨hspan, hrest⟩ := h5
    subst hrest
    obtain ⟨csR, hcsR⟩ := List.isPrefixOf_iff_prefix.mp h1
    have hlen3 : (if isP then percentOpen else angleOpen).length = 3 := by
      cases isP <;> rfl
    have hdrop : cs.drop 3 = csR := by
      rw [← hcsR, ← hlen3, List.drop_left]
    rw [hdrop] at h2 h3 hbody
    generalize hR2 : List.dropWhile isWs csR = R2 at h2 h3 hbody
    obtain ⟨sl, ws2, hsl, hws2, hR2s⟩ := slashSkip_split R2
    generalize hR3 : slashSkip R2 = R3 at h2 h3 hbody hR2s
    obtain ⟨R4, hR4⟩ := List.isPrefixOf_iff_prefix.mp h2
    have hdropn : R3.drop name.length = R4 := by
      rw [← hR4, List.drop_left]
    rw [hdropn] at h3 hbody
    obtain ⟨tail, htail⟩ := bodyScan_suffix isP R4 false false r2 hbody
    have hbnd := boundaryOkAt_head h3
    have hcsR2 : List.takeWhile isWs csR ++ R2 = csR := by
      rw [← hR2, List.takeWhile_append_dropWhile]
    have hcseq : cs = ((if isP then percentOpen else angleOpen)
        ++ List.takeWhile isWs csR ++ sl ++ ws2 ++ name ++ tail) ++ r2 := by
      rw [← hcsR]
      conv_lhs => rw [← hcsR2, hR2s, ← hR4, ← htail]
      simp [List.append_assoc]
    have hPs : span = (if isP then percentOpen else angleOpen)
        ++ List.takeWhile isWs csR ++ sl ++ ws2 ++ name ++ tail := by
      rw [← hspan]
      rw [hcseq, List.length_append, Nat.add_sub_cancel, List.take_left]
    refine ⟨by rw [hcseq, hPs], ?_, ?_⟩
    · rw [hcseq]
      simp only [List.length_append]
      rw [hlen3]
      omega
    · refine ⟨List.takeWhile isWs csR, sl, ws2, tail, hPs,
        fun c hc => List.mem_takeWhile_imp hc, hsl, hws2, ?_⟩
      intro c hc
      cases tail with
      | nil => cases hc
      | cons c0 tl =>
        injection hc with hc0
        subst hc0
        have hh : R4.head? = some c0 := by
          rw [← htail]
          rfl
        exact hbnd c0 hh

theorem scanLayout_cons (name : List Char) (isP : Bool) (c : Char) (t : List Char)
    (ss : List (List Char)) (hm : matchAt name isP (c :: t) = none)
    (hl : scanLayout name isP t ss) : scanLayout name isP (c :: t) ss := by
  cases ss with
  | nil =>
    intro a c2 b hab
    cases a with
    | nil =>
      injection hab with h1 h2
      subst h1
      subst h2
      exact hm
    | cons a0 a1 =>
      injection hab with h1 h2
      exact hl a1 c2 b h2
  | cons s ss2 =>
    obtain ⟨gap, rest, hsplit, hgap, hmatch, hrec⟩ := hl
    refine ⟨c :: gap, rest, by rw [hsplit]; rfl, ?_, hmatch, hrec⟩
    intro a c2 b hab
    cases a with
    | nil =>
      injection hab with h1 h2
      subst h1
      rw [← h2, ← hsplit]
      exact hm
    | cons a0 a1 =>
      injection hab with h1 h2
      exact hgap a1 c2 b h2

theorem scanDoc_layout (name : List Char) (isP : Bool) :
    ∀ (fuel : Nat) (doc : List Char), doc.length ≤ fuel →
      scanLayout name isP doc (scanDoc name isP fuel doc) := by
  intro fuel
  induction fuel with
  | zero =>
    intro doc hlen
    have hd : doc = [] := List.length_eq_zero.mp (Nat.le_zero.mp hlen)
    subst hd
    intro a c b hab
    exact absurd hab (by simp)
  | succ fuel ih =>
    intro doc hlen
    cases doc with
    | nil =>
      intro a c b hab
      exact absurd hab (by simp)
    | cons c t =>
      rw [show scanDoc name isP (fuel + 1) (c :: t)
          = (match matchAt name isP (c :: t) with
             | some (span, rest) => span :: scanDoc name isP fuel rest
             | none => scanDoc name isP fuel t) from rfl]
      cases hm : matchAt name isP (c :: t) with
      | some pr =>
        obtain ⟨span, rest⟩ := pr
        obtain ⟨hcs, hlen2, _⟩ := matchAt_spec hm
        refine ⟨[], rest, by simpa using hcs, ?_, ?_, ?_⟩
        · intro a c2 b hab
          exact absurd hab (by simp)
        · rw [← hcs]
          exact hm
        · refine ih rest ?_
          rw [List.length_cons] at hlen2
          simp only [List.length_cons] at hlen
          omega
      | none =>
        refine scanLayout_cons name isP c t _ hm (ih t ?_)
        simp only [List.length_cons] at hlen
        omega

/-- C8: the matcher is name-exact and returns every matching span,
non-overlapping, in left-to-right source order.  First, universally: on any
document, the returned spans decompose the document in source order (so they
are non-overlapping), each returned span is a genuine match of the pattern at
its own position, and the pattern matches at no position inside the gaps
before, between or after them — every matching span of the left-to-right,
resume-after-each-match scan is returned.  Second, universally: a matched
span carries the requested name exactly — after the opener, whitespace and an
optional slash, it shows `name` followed by a word boundary, so a directive
name that merely extends the requested one (`resource_one` for `resource`)
can never be matched.  Third, the pinned documents of the test file. -/
theorem claim_C8 :
    (∀ (name : List Char) (isP : Bool) (doc : List Char),
        scanLayout name isP doc (regexMatches name isP doc)) ∧
    (∀ (name : List Char) (isP : Bool) (cs span rest : List Char),
        matchAt name isP cs = some (span, rest) →
        ∃ ws1 sl ws2 tail,
          span = (if isP then percentOpen else angleOpen)
              ++ ws1 ++ sl ++ ws2 ++ name ++ tail ∧
          (∀ c ∈ ws1, isWs c = true) ∧ (sl = [] ∨ sl = ['/']) ∧
          (∀ c ∈ ws2, isWs c = true) ∧
          (∀ c, tail.head? = some c → wordChar c = false)) ∧
    regexMatches "resource".toList false
        "a \x7b\x7b< resource xyz >\x7d\x7d b \x7b\x7b< resource_one 123 >\x7d\x7d c \x7b\x7b< resource 456 >\x7d\x7d d".toList
      = ["\x7b\x7b< resource xyz >\x7d\x7d".toList,
         "\x7b\x7b< resource 456 >\x7d\x7d".toList] ∧
    regexMatches "some_shortcode".toList false
        "a \x7b\x7b< some_shortcode xyz >\x7d\x7d b \x7b\x7b< some_shortcode_two 123 >\x7d\x7d \x7b\x7b< /some_shortcode xyz >\x7d\x7d".toList
      = ["\x7b\x7b< some_shortcode xyz >\x7d\x7d".toList,
         "\x7b\x7b< /some_shortcode xyz >\x7d\x7d".toList] ∧
    regexMatches "some_shortcode_two".toList false
        "a \x7b\x7b< some_shortcode xyz >\x7d\x7d b \x7b\x7b< some_shortcode_two 123 >\x7d\x7d".toList
      = ["\x7b\x7b< some_shortcode_two 123 >\x7d\x7d".toList] :=
  ⟨fun name isP doc => scanDoc_layout name isP doc.length doc (Nat.le_refl _),
   fun name isP cs span rest h => (matchAt_spec h).2.2,
   by decide, by decide, by decide⟩

/-- Witness for C8: the name-exactness statement applied to the concrete
match of `resource` at `\x7b\x7b< resource xyz >\x7d\x7d`, its hypothesis
discharged by evaluation. -/
theorem claim_C8_witness :
    matchAt "resource".toList false "\x7b\x7b< resource xyz >\x7d\x7d".toList
      = some ("\x7b\x7b< resource xyz >\x7d\x7d".toList, []) ∧
    ∃ ws1 sl ws2 tail,
      "\x7b\x7b< resource xyz >\x7d\x7d".toList
        = angleOpen ++ ws1 ++ sl ++ ws2 ++ "resource".toList ++ tail ∧
      (∀ c ∈ ws1, isWs c = true) ∧ (sl = [] ∨ sl = ['/']) ∧
      (∀ c ∈ ws2, isWs c = true) ∧
      (∀ c, tail.head? = some c → wordChar c = false) :=
  ⟨by decide,
   claim_C8.2.1 "resource".toList false "\x7b\x7b< resource xyz >\x7d\x7d".toList
     "\x7b\x7b< resource xyz >\x7d\x7d".toList [] (by decide)⟩

/-- C9: a quoted value ending in a literal backslash before its closing quote
is accepted: `\x7b\x7b% resource_link uuid123 "ok \\" %\x7d\x7d` parses to a
percent-delimited `resource_link` with positional values `uuid123` and `ok`. -/
theorem claim_C9 :
    Shortcode.fromString
        "\x7b\x7b% resource_link uuid123 \"ok \\\\\" %\x7d\x7d".toList
      = .ok ⟨"resource_link".toList,
          [⟨"uuid123".toList, none⟩, ⟨"ok".toList, none⟩], true, false, false⟩ := by
  decide

/-- C10: the matcher returns a closing-form span even when parameter tokens
follow `/name` — `\x7b\x7b< /some_shortcode xyz >\x7d\x7d` is matched in
full — although a parsed closing shortcode itself carries no parameters: the
plain closer parses with an empty parameter list, and the one with parameters
is rejected by `fromString`. -/
theorem claim_C10 :
    regexMatches "some_shortcode".toList false
        "\x7b\x7b< /some_shortcode xyz >\x7d\x7d".toList
      = ["\x7b\x7b< /some_shortcode xyz >\x7d\x7d".toList] ∧
    Shortcode.fromString "\x7b\x7b< /some_shortcode >\x7d\x7d".toList
      = .ok ⟨"some_shortcode".toList, [], false, true, false⟩ ∧
    Shortcode.fromString "\x7b\x7b< /some_shortcode xyz >\x7d\x7d".toList
      = .error .closerHasParams := by
  refine ⟨by decide, by decide, by decide⟩

end ShortcodeModel
